import Mathlib

/-!
Verification of the meeting-assistant transcript analytics pipeline.

The development shallowly embeds the Python backend:

* Python strings are modelled as `List Char` (a Python `str` is a sequence of
  code points; the ASCII fragment exercised by the pipeline is modelled
  exactly, with `Char.toLower`/`Char.toUpper` standing for `str.lower`/
  `str.upper` and `Char.isWhitespace` for the whitespace class).
* Python floats (segment times, confidence weights) are modelled as exact
  rationals `ℚ`.  All confidence weights are decimal fractions whose sums and
  comparisons against the 0.6 gate coincide with IEEE double evaluation on
  the reachable values.
* `datetime.now()` is an effect: the wall-clock reading is passed to the
  embedded `track_mentions` as an explicit `now` argument.
* `list(set(...))` iterates a set in an unspecified (per-process fixed)
  order; it is modelled by `List.dedup`, which keeps the first occurrence of
  each element.  Claims about the variation collection are stated by
  membership, so they do not depend on this order.
* Fallible code (a Python expression that can raise) returns `Option`.
* Regular expressions are hand-compiled to executable scanners that follow
  the leftmost-match and backtracking semantics of the `re` module for the
  concrete pattern in question; each scanner carries the original pattern in
  its doc comment.
-/

/-! ## String primitives (Python str / re helpers) -/

/-- Whitespace test used by Python `str.strip`, `str.split` and the regex
class `\s` (ASCII fragment). -/
def isSpace (c : Char) : Bool := c.isWhitespace

/-- Python `str.lower` (ASCII fragment). -/
def lowerStr (s : List Char) : List Char := s.map Char.toLower

/-- Python `str.strip()`: remove leading and trailing whitespace. -/
def pyStrip (s : List Char) : List Char :=
  ((s.dropWhile isSpace).reverse.dropWhile isSpace).reverse

/-- Worker for `pySplit`: accumulates the current word (reversed). -/
def pySplitGo (cur : List Char) : List Char → List (List Char)
  | [] => if cur.isEmpty then [] else [cur.reverse]
  | c :: cs =>
    if isSpace c then
      if cur.isEmpty then pySplitGo [] cs else cur.reverse :: pySplitGo [] cs
    else pySplitGo (c :: cur) cs

/-- Python `str.split()` with no argument: split on whitespace runs,
producing no empty pieces. -/
def pySplit (s : List Char) : List (List Char) := pySplitGo [] s

/-- Python substring test `a in b` (used for keyword containment). -/
def containsSub (hay needle : List Char) : Bool := decide (needle <:+: hay)

/-! ## Interval Aligner (src/backend/app/api.py, merge_transcription_diarization) -/

/-- Transcription segment as produced by the transcription collaborator:
only start, end and text. -/
structure TransSeg where
  start : ℚ
  «end» : ℚ
  text : List Char
deriving DecidableEq

/-- Result of the transcription collaborator; `language` is read with
`transcription.get("language", "en")`, hence optional. -/
structure Transcription where
  text : List Char
  segments : List TransSeg
  language : Option (List Char)
deriving DecidableEq

/-- Diarization interval supplied by the diarization collaborator. -/
structure DiaInterval where
  start : ℚ
  «end» : ℚ
  speaker : List Char
deriving DecidableEq

/-- Output segment of the aligner: input fields plus a speaker label. -/
structure MergedSeg where
  start : ℚ
  «end» : ℚ
  text : List Char
  speaker : List Char
deriving DecidableEq

/-- Return value of `merge_transcription_diarization`. -/
structure MergedTranscript where
  full_text : List Char
  segments : List MergedSeg
  language : List Char
deriving DecidableEq

/-- Default fallback speaker label. -/
def defaultSpeaker : List Char := "Speaker_0".data

/-- Inner loop of `merge_transcription_diarization`: `speaker` starts as the
default, is set to the speaker of the first interval with
`dia_segment["start"] < segment_end and dia_segment["end"] > segment_start`,
and the loop breaks; equivalently, first match else default. -/
def findSpeaker (segment_start segment_end : ℚ) : List DiaInterval → List Char
  | [] => defaultSpeaker
  | d :: rest =>
    if d.start < segment_end ∧ d.«end» > segment_start then d.speaker
    else findSpeaker segment_start segment_end rest

/-- Embedding of `merge_transcription_diarization` (api.py lines 140-183). -/
def merge_transcription_diarization (transcription : Transcription)
    (diarization : List DiaInterval) : MergedTranscript :=
  let segments_with_speakers :=
    if diarization ≠ [] then
      transcription.segments.map (fun segment =>
        { start := segment.start
          «end» := segment.«end»
          text := segment.text
          speaker := findSpeaker segment.start segment.«end» diarization })
    else
      transcription.segments.map (fun segment =>
        { start := segment.start
          «end» := segment.«end»
          text := segment.text
          speaker := defaultSpeaker })
  { full_text := transcription.text
    segments := segments_with_speakers
    language := transcription.language.getD "en".data }

/-- Strict temporal overlap between a transcription segment and a
diarization interval, as tested by the aligner. -/
def overlaps (seg : TransSeg) (d : DiaInterval) : Prop :=
  d.start < seg.«end» ∧ d.«end» > seg.start

instance (seg : TransSeg) (d : DiaInterval) : Decidable (overlaps seg d) := by
  unfold overlaps; infer_instance

/-! ## Mention Tracker: search, deduplication, highlighting
(src/backend/services/mention_tracker.py) -/

/-- Word character of the regex classes `\w` and boundary `\b`
(ASCII fragment). -/
def isWordChar (c : Char) : Bool := c.isAlphanum || c == '_'

/-- Regex word boundary `\b` between offsets i-1 and i of s; out-of-range
counts as non-word. -/
def wordBoundary (s : List Char) (i : Nat) : Bool :=
  (if i = 0 then false else isWordChar (s.getD (i - 1) ' '))
    != isWordChar (s.getD i ' ')

/-- Case-insensitive literal match of lit at offset i of s
(re.IGNORECASE on the ASCII fragment). -/
def matchCIAt (s : List Char) (i : Nat) (lit : List Char) : Bool :=
  lowerStr ((s.drop i).take lit.length) == lowerStr lit

/-- Whole-word case-insensitive match of the pattern
`\b` + re.escape(variation) + `\b` at offset i. -/
def wordMatchAt (s v : List Char) (i : Nat) : Bool :=
  matchCIAt s i v && wordBoundary s i && wordBoundary s (i + v.length)

/-- The start offsets yielded by `re.finditer` for the whole-word pattern:
scan offsets left to right, accept a match only at or past the end of the
previous one (advancing by one position for a zero-width match). -/
def scanWordMatches (s v : List Char) : List Nat :=
  ((List.range (s.length + 1)).foldl
    (fun (acc : List Nat × Nat) i =>
      if acc.2 ≤ i ∧ wordMatchAt s v i then
        (acc.1 ++ [i], i + max v.length 1)
      else acc)
    ([], 0)).1

/-- Mention record produced by `MentionTracker._find_mentions`. -/
structure Mention where
  variation : List Char
  matched_text : List Char
  position : Nat
  end_position : Nat
  context : List Char
deriving DecidableEq

/-- One mention record for a match of variation at start_pos:
`match.group()` is the original transcript slice, the context window is
50 characters each side clamped to the transcript, then stripped. -/
def mentionAt (transcript variation : List Char) (start_pos : Nat) : Mention :=
  let end_pos := start_pos + variation.length
  let context_start := start_pos - 50
  let context_end := min transcript.length (end_pos + 50)
  { variation := variation
    matched_text := (transcript.drop start_pos).take variation.length
    position := start_pos
    end_position := end_pos
    context := pyStrip ((transcript.drop context_start).take (context_end - context_start)) }

/-- All candidate mentions, per variation in variation-list order
(`_find_mentions` before deduplication). -/
def findMentionsRaw (transcript : List Char) (vars : List (List Char)) :
    List Mention :=
  (vars.map (fun v =>
    (scanWordMatches transcript v).map (mentionAt transcript v))).flatten

/-- Loop body of `MentionTracker._deduplicate_mentions`: keep a mention only
if its start is at least 5 past the previously kept end. -/
def dedupGo (last : Mention) : List Mention → List Mention
  | [] => []
  | m :: rest =>
    if m.position < last.end_position + 5 then dedupGo last rest
    else m :: dedupGo m rest

/-- Embedding of `MentionTracker._deduplicate_mentions` (lines 186-213):
sort by position (Python sorted is stable; modelled by the stable
`List.mergeSort`), keep the first, then filter by the 5-character gap. -/
def deduplicate_mentions (mentions : List Mention) : List Mention :=
  match mentions.mergeSort (fun a b => decide (a.position ≤ b.position)) with
  | [] => []
  | m :: rest => m :: dedupGo m rest

/-- Embedding of `MentionTracker._find_mentions` (lines 141-184): gather raw
matches, deduplicate, then sort by position. -/
def find_mentions (transcript : List Char) (vars : List (List Char)) :
    List Mention :=
  (deduplicate_mentions (findMentionsRaw transcript vars)).mergeSort
    (fun a b => decide (a.position ≤ b.position))

/-- Opening highlight marker. -/
def openTag : List Char := "[MENTION]".data

/-- Closing highlight marker. -/
def closeTag : List Char := "[/MENTION]".data

/-- One replacement step of `_build_highlighted_transcript`:
`before + tags + matched_text + after` at the recorded offsets. -/
def highlightStep (highlighted : List Char) (m : Mention) : List Char :=
  highlighted.take m.position ++ openTag ++ m.matched_text ++ closeTag
    ++ highlighted.drop m.end_position

/-- Embedding of `MentionTracker._build_highlighted_transcript`
(lines 215-247): process mentions in descending position order (Python
sorted with reverse=True, a stable descending sort). -/
def build_highlighted_transcript (transcript : List Char)
    (mentions : List Mention) : List Char :=
  if mentions = [] then transcript
  else
    (mentions.mergeSort (fun a b => decide (b.position ≤ a.position))).foldl
      highlightStep transcript

/-- Removing all `[MENTION]` and `[/MENTION]` marker tags: a single greedy
left-to-right scan deleting each tag occurrence. -/
def stripTags : List Char → List Char
  | [] => []
  | c :: cs =>
    if openTag.isPrefixOf (c :: cs) then stripTags ((c :: cs).drop openTag.length)
    else if closeTag.isPrefixOf (c :: cs) then
      stripTags ((c :: cs).drop closeTag.length)
    else c :: stripTags cs
termination_by l => l.length
decreasing_by
  · simp [openTag]; omega
  · simp [closeTag]; omega
  · simp

/-- Gap invariant guaranteed by deduplication: the next mention starts at
least 5 characters past the previous kept end. -/
def mentionGap (a b : Mention) : Prop := a.end_position + 5 ≤ b.position

instance (a b : Mention) : Decidable (mentionGap a b) := by
  unfold mentionGap; infer_instance

/-- A mention is well formed for a transcript when its span lies inside the
transcript and its matched text is the spanned slice (which holds for every
mention produced by `_find_mentions`). -/
def wellFormedMention (transcript : List Char) (m : Mention) : Prop :=
  m.position ≤ m.end_position ∧ m.end_position ≤ transcript.length ∧
    m.matched_text = (transcript.drop m.position).take (m.end_position - m.position)

instance (transcript : List Char) (m : Mention) :
    Decidable (wellFormedMention transcript m) := by
  unfold wellFormedMention; infer_instance

/-- Specification shape of the highlighted transcript: the pieces of the
transcript around the (ascending) mentions, interleaved with the tags; the
argument k is the offset already emitted. -/
def spliceAux (transcript : List Char) : List Mention → Nat → List Char
  | [], k => transcript.drop k
  | m :: rest, k =>
    (transcript.drop k).take (m.position - k) ++ openTag ++ m.matched_text
      ++ closeTag ++ spliceAux transcript rest m.end_position

/-- Transcript that itself contains a highlight marker, refuting the
unconditional round-trip claim. -/
def c3CexTranscript : List Char := "[MENTION] Al".data

/-- A perfectly well-formed, deduplicated mention of "Al" at offsets 10-12
of `c3CexTranscript`. -/
def c3CexMention : Mention :=
  { variation := "al".data
    matched_text := "Al".data
    position := 10
    end_position := 12
    context := "[MENTION] Al".data }

/-! ## Name-variation generation (mention_tracker.py lines 118-139 and
personal_insights.py lines 164-180) -/

/-- Initials string `"".join([word[0] for word in name.split()])`; the
pieces from split are nonempty, so the indexing never fails and is modelled
with `List.head?`. -/
def nameInitials (name : List Char) : List Char :=
  (pySplit name).filterMap List.head?

/-- Embedding of `MentionTracker._generate_name_variations`: lower-cased
full name; when the name contains a space also the first split token and
the initials; deduplicated by `list(set(...))`.  `username.split()[0]`
raises IndexError when the name contains a space but splits to no words;
that fallibility is the `none` case. -/
def mt_generate_name_variations (username : List Char) :
    Option (List (List Char)) :=
  if ' ' ∈ username then
    match pySplit username with
    | [] => none
    | w :: _ =>
      some (([lowerStr username] ++ [lowerStr w]
        ++ [lowerStr (nameInitials username)]).dedup)
  else some ([lowerStr username].dedup)

/-- Embedding of `PersonalInsightsService._generate_name_variations`:
lower-cased full name; the first token only when there are at least two
tokens; the initials whenever they are nonempty (also for single-word
names). -/
def pi_generate_name_variations (name : List Char) : List (List Char) :=
  let parts := pySplit name
  let base := [lowerStr name]
  let withFirst :=
    match parts with
    | p :: _ :: _ => base ++ [lowerStr p]
    | _ => base
  let initials := nameInitials name
  (if initials.isEmpty then withFirst
    else withFirst ++ [lowerStr initials]).dedup

/-- Marker-free transcript for the round-trip witness. -/
def c3WitTranscript : List Char := "Al will review the deck.".data

/-- Well-formed mention of "Al" at offsets 0-2 of `c3WitTranscript`. -/
def c3WitMention : Mention :=
  { variation := "al".data
    matched_text := "Al".data
    position := 0
    end_position := 2
    context := "Al will review the deck.".data }

/-! ## Mention Tracker: sentence extraction, task assignments, report
(mention_tracker.py lines 249-400 and 36-116) -/

/-- First alternative of some options. -/
def firstSome {α : Type} : List (Option α) → Option α
  | [] => none
  | some a :: _ => some a
  | none :: rest => firstSome rest

/-- Case-insensitive literal piece of a pattern at offset i; returns the
offset after the piece. -/
def litCI (s : List Char) (i : Nat) (lit : List Char) : Option Nat :=
  if matchCIAt s i lit then some (i + lit.length) else none

/-- Backtracking for a greedy `\s+` followed by a continuation k: try the
whitespace runs of length maxRun, maxRun-1, ..., 1 in order. -/
def wsBacktrackGo {α : Type} (j : Nat) (k : Nat → Option α) : Nat → Option α
  | 0 => none
  | w + 1 =>
    match k (j + w + 1) with
    | some r => some r
    | none => wsBacktrackGo j k w

/-- Greedy `\s+` with backtracking before the continuation k. -/
def wsBacktrack {α : Type} (s : List Char) (j : Nat) (k : Nat → Option α) :
    Option α :=
  wsBacktrackGo j k ((s.drop j).takeWhile isSpace).length

/-- Offset of the first sentence punctuation at or after j (or the string
end): where the lazy group `(.+?)(?:[.!?]|$)` stops growing. -/
def findStop (s : List Char) (j : Nat) : Nat :=
  j + ((s.drop j).takeWhile
    (fun c => !(c == '.' || c == '!' || c == '?'))).length

/-- Lazy capture `(.+?)(?:[.!?]|$)` starting at offset j: at least one
character up to the first punctuation or the string end; returns
(capture start, capture end, match end). -/
def capLazy (s : List Char) (j : Nat) : Option (Nat × Nat × Nat) :=
  if j < s.length then
    let e := findStop s (j + 1)
    some (j, e, if e < s.length then e + 1 else e)
  else none

/-- Tail `\s+(.+?)(?:[.!?]|$)` common to the task patterns. -/
def wsThenCap (s : List Char) (j : Nat) : Option (Nat × Nat × Nat) :=
  wsBacktrack s j (capLazy s)

/-- Hand-compilation of task pattern 1,
`(?:can you|could you|will you|would you|can (?:V1|..|Vn)|V1|..|V(n-1)|Vn\s+(?:can|could|will|would))\s+(.+?)(?:[.!?]|$)`:
the joined variation list leaves the bare variations as stand-alone
alternatives and attaches the modal suffix only to the last one.  The
variations are interpolated unescaped in the source; this matcher treats
them as literals and therefore models the pattern on the domain where
every variation satisfies `variationIsRegexLiteral`. -/
def p1MatchAt (vars : List (List Char)) (s : List Char) (i : Nat) :
    Option (Nat × Nat × Nat) :=
  firstSome (
    (["can you".data, "could you".data, "will you".data, "would you".data].map
      (fun h => (litCI s i h).bind (wsThenCap s)))
    ++ vars.map (fun v => (litCI s i ("can ".data ++ v)).bind (wsThenCap s))
    ++ vars.dropLast.map (fun v => (litCI s i v).bind (wsThenCap s))
    ++ [(match vars.getLast? with
        | none => none
        | some v =>
          (litCI s i v).bind (fun j =>
            wsBacktrack s j (fun j2 =>
              firstSome (["can".data, "could".data, "will".data,
                "would".data].map
                (fun md => (litCI s j2 md).bind (wsThenCap s))))))])

/-- Tail `task\s+(?:to\s+)?(.+?)(?:[.!?]|$)` of task pattern 2. -/
def p2TaskPart (s : List Char) (j : Nat) : Option (Nat × Nat × Nat) :=
  (litCI s j "task".data).bind (fun j6 =>
    wsBacktrack s j6 (fun j7 =>
      match (litCI s j7 "to".data).bind (fun j8 =>
          wsBacktrack s j8 (fun j9 => capLazy s j9)) with
      | some r => some r
      | none => capLazy s j7))

/-- Hand-compilation of task pattern 2,
`(?:assign|assigned|assign to|give to)\s+(?:V)\s+(?:the\s+)?task\s+(?:to\s+)?(.+?)(?:[.!?]|$)`. -/
def p2MatchAt (vars : List (List Char)) (s : List Char) (i : Nat) :
    Option (Nat × Nat × Nat) :=
  firstSome (["assign".data, "assigned".data, "assign to".data,
    "give to".data].map
    (fun h => (litCI s i h).bind (fun j =>
      wsBacktrack s j (fun jv =>
        firstSome (vars.map (fun v => (litCI s jv v).bind (fun j2 =>
          wsBacktrack s j2 (fun j3 =>
            match (litCI s j3 "the".data).bind (fun j4 =>
                wsBacktrack s j4 (fun j5 => p2TaskPart s j5)) with
            | some r => some r
            | none => p2TaskPart s j3))))))))

/-- Hand-compilation of task pattern 3,
`(?:V)\s+(?:needs to|should|will|can|must)\s+(.+?)(?:[.!?]|$)`. -/
def p3MatchAt (vars : List (List Char)) (s : List Char) (i : Nat) :
    Option (Nat × Nat × Nat) :=
  firstSome (vars.map (fun v => (litCI s i v).bind (fun j =>
    wsBacktrack s j (fun j2 =>
      firstSome (["needs to".data, "should".data, "will".data, "can".data,
        "must".data].map
        (fun ph => (litCI s j2 ph).bind (wsThenCap s)))))))

/-- Hand-compilation of task pattern 4,
`(?:needs|need)\s+(?:V)\s+to\s+(.+?)(?:[.!?]|$)`. -/
def p4MatchAt (vars : List (List Char)) (s : List Char) (i : Nat) :
    Option (Nat × Nat × Nat) :=
  firstSome (["needs".data, "need".data].map
    (fun h => (litCI s i h).bind (fun j =>
      wsBacktrack s j (fun j2 =>
        firstSome (vars.map (fun v => (litCI s j2 v).bind (fun j3 =>
          wsBacktrack s j3 (fun j4 =>
            (litCI s j4 "to".data).bind (wsThenCap s)))))))))

/-- The capture spans yielded by `re.finditer` for a pattern matcher:
leftmost matches, resuming after each match end. -/
def scanPatternMatches (matchAt : Nat → Option (Nat × Nat × Nat))
    (len : Nat) : List (Nat × Nat) :=
  ((List.range (len + 1)).foldl
    (fun (acc : List (Nat × Nat) × Nat) i =>
      if acc.2 ≤ i then
        match matchAt i with
        | some (cs, ce, me) => (acc.1 ++ [(cs, ce)], max me (i + 1))
        | none => acc
      else acc)
    ([], 0)).1

/-- Match of the sentence-split separator `(?<=[.!?])\s+|\n+` at offset i:
a whitespace run with a punctuation lookbehind, or a newline run; returns
the match length. -/
def sentenceSepAt (s : List Char) (i : Nat) : Option Nat :=
  let wsRun := ((s.drop i).takeWhile isSpace).length
  if (i ≠ 0 ∧ (s.getD (i - 1) ' ') ∈ ['.', '!', '?']) ∧ 1 ≤ wsRun then
    some wsRun
  else
    let nlRun := ((s.drop i).takeWhile (fun c => c == '\n')).length
    if 1 ≤ nlRun then some nlRun else none

/-- Pieces produced by `re.split` for the sentence separator: the texts
between consecutive separator matches, including empty edge pieces. -/
def pySplitSentences (s : List Char) : List (List Char) :=
  let st := (List.range (s.length + 1)).foldl
    (fun (acc : List (List Char) × Nat × Nat) i =>
      if acc.2.2 ≤ i then
        match sentenceSepAt s i with
        | some len =>
          (acc.1 ++ [(s.drop acc.2.1).take (i - acc.2.1)], i + len, i + len)
        | none => acc
      else acc)
    ([], 0, 0)
  st.1 ++ [s.drop st.2.1]

/-- Mention rebased to sentence-local coordinates. -/
structure SentenceMention where
  text : List Char
  variation : List Char
  position_in_sentence : Nat
deriving DecidableEq

/-- A sentence span with the mentions it contains. -/
structure SentenceGroup where
  sentence : List Char
  position : Nat
  mention_count : Nat
  mentions : List SentenceMention
deriving DecidableEq

/-- Embedding of `MentionTracker._extract_sentences_with_mentions`
(lines 249-304), including the source arithmetic that advances past each
non-empty piece by its length plus one. -/
def extract_sentences_with_mentions (transcript : List Char)
    (mentions : List Mention) : List SentenceGroup :=
  ((pySplitSentences transcript).foldl
    (fun (acc : List SentenceGroup × Nat) raw_sentence =>
      if (pyStrip raw_sentence).isEmpty then
        (acc.1, acc.2 + raw_sentence.length)
      else
        let sentence_start := acc.2
        let sentence_end := acc.2 + raw_sentence.length
        let sentence_mentions := mentions.filter (fun m =>
          decide (sentence_start ≤ m.position ∧ m.position < sentence_end))
        let newAcc :=
          if sentence_mentions.isEmpty then acc.1
          else acc.1 ++ [{
            sentence := pyStrip raw_sentence
            position := sentence_start
            mention_count := sentence_mentions.length
            mentions := sentence_mentions.map (fun m =>
              { text := m.matched_text
                variation := m.variation
                position_in_sentence := m.position - sentence_start }) }]
        (newAcc, sentence_end + 1))
    ([], 0)).1

/-- Capitalize the first character (`text[0].upper() + text[1:]`). -/
def capitalizeFirst : List Char → List Char
  | [] => []
  | c :: cs => c.toUpper :: cs

/-- Task assignment record produced by the mention tracker. -/
structure TaskAssignment where
  task : List Char
  assigned_to : List Char
  source_sentence : List Char
  confidence : List Char
deriving DecidableEq

/-- Deduplicate tasks by lower-cased task text, keeping first occurrences. -/
def dedupTasksGo (seen : List (List Char)) :
    List TaskAssignment → List TaskAssignment
  | [] => []
  | t :: rest =>
    if lowerStr t.task ∈ seen then dedupTasksGo seen rest
    else t :: dedupTasksGo (lowerStr t.task :: seen) rest

/-- All capture spans of the four task patterns over one sentence, in
pattern order. -/
def taskPatternsMatches (vars : List (List Char)) (sentence : List Char) :
    List (Nat × Nat) :=
  scanPatternMatches (p1MatchAt vars sentence) sentence.length
    ++ scanPatternMatches (p2MatchAt vars sentence) sentence.length
    ++ scanPatternMatches (p3MatchAt vars sentence) sentence.length
    ++ scanPatternMatches (p4MatchAt vars sentence) sentence.length

/-- Embedding of `MentionTracker._extract_task_assignments`
(lines 306-362) on the modelled domain: the source interpolates the name
variations into the four patterns without re.escape, so the literal
matchers above are faithful exactly when every variation satisfies
`variationIsRegexLiteral`; a metacharacter variation instead turns the
pattern into regex source, which can raise re.error at finditer time (the
caller converts that to an absent result) or alter the matching. -/
def extract_task_assignments (sentences : List SentenceGroup)
    (username : List Char) (vars : List (List Char)) : List TaskAssignment :=
  let tasks := (sentences.map (fun sd =>
    (taskPatternsMatches vars sd.sentence).filterMap (fun cap =>
      let task_text := pyStrip ((sd.sentence.drop cap.1).take (cap.2 - cap.1))
      if task_text ≠ [] ∧ 5 < task_text.length then
        some { task := capitalizeFirst task_text
               assigned_to := username
               source_sentence := sd.sentence
               confidence := "extracted".data }
      else none))).flatten
  dedupTasksGo [] tasks

/-- Speaker-attributed mention record. -/
structure SpeakerMention where
  segment_index : Nat
  speaker : List Char
  text : List Char
  start_time : ℚ
  end_time : ℚ
  mention_type : List Char
deriving DecidableEq

/-- Embedding of `MentionTracker._get_speaker_mentions` (lines 364-400):
a segment with a non-empty speaker label is reported once when any
variation is a substring of the lower-cased label (the source loop breaks
after the first matching variation; the record does not depend on which
one).  Merged segments carry no index key, so `segment.get("index", 0)`
is 0. -/
def get_speaker_mentions (segments : List MergedSeg)
    (vars : List (List Char)) : List SpeakerMention :=
  segments.filterMap (fun segment =>
    if segment.speaker.isEmpty then none
    else if vars.any (fun v => containsSub (lowerStr segment.speaker) v) then
      some { segment_index := 0
             speaker := segment.speaker
             text := segment.text
             start_time := segment.start
             end_time := segment.«end»
             mention_type := "speaker".data }
    else none)

/-- Result record of `MentionTracker.track_mentions`. -/
structure MentionReport where
  username : List Char
  highlight_transcript : List Char
  mention_count : Nat
  mentions : List Mention
  sentences_with_mentions : List SentenceGroup
  sentence_count : Nat
  assigned_tasks : List TaskAssignment
  speaker_mentions : List SpeakerMention
  tracked_at : List Char
  tracking_status : List Char
deriving DecidableEq

/-- Embedding of `MentionTracker.track_mentions` (lines 36-116).  The
`datetime.now().isoformat()` reading is the explicit `now` argument.  The
source wraps the body in a catch-all except returning None; within the
modelled domain (every generated variation satisfies
`variationIsRegexLiteral`, so the unescaped task patterns are literal and
compile) the only error source is the fallible variation generator, whose
`none` branch is the caught-exception path here.  Outside that domain the
source can additionally catch an re.error raised when compiling the
interpolated task patterns and return None even though mentions were
found; this embedding does not model that regime. -/
def track_mentions (username full_transcript : List Char)
    (segments : List MergedSeg) (diarization_available : Bool)
    (now : List Char) : Option MentionReport :=
  if username = [] ∨ full_transcript = [] then none
  else
    match mt_generate_name_variations (pyStrip username) with
    | none => none
    | some name_variations =>
      if find_mentions full_transcript name_variations = [] then none
      else
        some { username := pyStrip username
               highlight_transcript := build_highlighted_transcript
                 full_transcript (find_mentions full_transcript name_variations)
               mention_count :=
                 (find_mentions full_transcript name_variations).length
               mentions := find_mentions full_transcript name_variations
               sentences_with_mentions := extract_sentences_with_mentions
                 full_transcript (find_mentions full_transcript name_variations)
               sentence_count := (extract_sentences_with_mentions
                 full_transcript
                 (find_mentions full_transcript name_variations)).length
               assigned_tasks := extract_task_assignments
                 (extract_sentences_with_mentions full_transcript
                   (find_mentions full_transcript name_variations))
                 (pyStrip username) name_variations
               speaker_mentions :=
                 if diarization_available then
                   get_speaker_mentions segments name_variations
                 else []
               tracked_at := now
               tracking_status := "success".data }

/-- Forget the wall-clock field of a report. -/
def stripTrackedAt (r : MentionReport) : MentionReport :=
  { r with tracked_at := [] }

/-- The single mention of "Al" in the concrete transcript used to exercise
`track_mentions`. -/
def alMention : Mention := mentionAt "Al is here.".data "al".data 0

/-- The report produced by `track_mentions` for username "Al" and
transcript "Al is here." at wall-clock reading now. -/
def alReport (now : List Char) : MentionReport :=
  { username := "Al".data
    highlight_transcript :=
      build_highlighted_transcript "Al is here.".data [alMention]
    mention_count := [alMention].length
    mentions := [alMention]
    sentences_with_mentions :=
      extract_sentences_with_mentions "Al is here.".data [alMention]
    sentence_count :=
      (extract_sentences_with_mentions "Al is here.".data [alMention]).length
    assigned_tasks := extract_task_assignments
      (extract_sentences_with_mentions "Al is here.".data [alMention])
      "Al".data ["al".data]
    speaker_mentions := []
    tracked_at := now
    tracking_status := "success".data }

/-! ## Action Item Extractor (src/backend/services/action_items.py) -/

/-- Entity span reported by the spaCy collaborator. -/
structure SpacyEnt where
  text : List Char
  label : List Char
deriving DecidableEq

/-- Sentence produced by the spaCy sentence-segmentation collaborator,
with its entity spans: the collaborator output over which the extractor is
deterministic. -/
structure SpacySent where
  text : List Char
  ents : List SpacyEnt
deriving DecidableEq

/-- Structured task record emitted by the extractor. -/
structure ActionItem where
  task : List Char
  assignee : List Char
  deadline : List Char
  priority : List Char
  context : List Char
  confidence : ℚ
deriving DecidableEq

/-- The fixed action-verb vocabulary. -/
def action_verbs : List (List Char) :=
  ["will".data, "should".data, "must".data, "need to".data, "needs to".data,
   "have to".data, "has to".data, "going to".data, "plan to".data,
   "plans to".data, "responsible for".data, "assigned to".data,
   "take care of".data, "handle".data, "complete".data, "finish".data,
   "deliver".data, "prepare".data, "create".data, "build".data,
   "develop".data, "design".data, "implement".data, "review".data,
   "send".data]

/-- Case-insensitive substring test against the action-verb vocabulary
(`ActionItemExtractor._contains_action_verb`). -/
def contains_action_verb (text : List Char) : Bool :=
  action_verbs.any (fun verb => containsSub (lowerStr text) verb)

/-- Python `" and ".join`. -/
def joinAnd : List (List Char) → List Char
  | [] => []
  | [p] => p
  | p :: rest => p ++ " and ".data ++ joinAnd rest

/-- The fixed role vocabulary of the assignee fallback. -/
def assigneeRoles : List (List Char) :=
  ["team".data, "designer".data, "developer".data, "manager".data,
   "lead".data, "engineer".data]

/-- Embedding of `ActionItemExtractor._extract_assignee` (lines 76-85):
PERSON entities joined with " and ", else the first role whose
"the role" form occurs in the lower-cased sentence. -/
def extract_assignee (sent : SpacySent) : Option (List Char) :=
  let persons := (sent.ents.filter
    (fun e => e.label == "PERSON".data)).map SpacyEnt.text
  if persons ≠ [] then some (joinAnd persons)
  else
    match assigneeRoles.find? (fun role =>
        containsSub (lowerStr sent.text) ("the ".data ++ role)) with
    | some role => some ("The ".data ++ role)
    | none => none

/-- Python `str.title()` (ASCII fragment): an alphabetic character is
upper-cased after a non-alphabetic character and lower-cased otherwise. -/
def pyTitleGo (prevAlpha : Bool) : List Char → List Char
  | [] => []
  | c :: cs =>
    (if c.isAlpha then (if prevAlpha then c.toLower else c.toUpper) else c)
      :: pyTitleGo c.isAlpha cs

/-- Python `str.title()`. -/
def pyTitle (s : List Char) : List Char := pyTitleGo false s

/-- The weekday alternation of date pattern 1. -/
def weekdayNames : List (List Char) :=
  ["monday".data, "tuesday".data, "wednesday".data, "thursday".data,
   "friday".data, "saturday".data, "sunday".data]

/-- The relative-day alternation of date pattern 2. -/
def relativeDayNames : List (List Char) :=
  ["tomorrow".data, "today".data, "next week".data, "this week".data]

/-- The month alternation of date pattern 3. -/
def monthNames : List (List Char) :=
  ["january".data, "february".data, "march".data, "april".data, "may".data,
   "june".data, "july".data, "august".data, "september".data,
   "october".data, "november".data, "december".data]

/-- Hand-compilation of `re.search` for a whole-word alternation
`\b(w1|...|wn)\b`: leftmost offset first, alternatives in order; the match
is the word itself (the text is already lower-cased). -/
def searchWordAlt (words : List (List Char)) (s : List Char) :
    Option (List Char) :=
  firstSome ((List.range (s.length + 1)).map (fun i =>
    firstSome (words.map (fun w =>
      if matchCIAt s i w ∧ wordBoundary s i ∧ wordBoundary s (i + w.length)
      then some w else none))))

/-- Month followed by `\s+\d{1,2}\b` at offset i (no leading boundary
check here): the greedy two-digit try falls back to one digit, whose
trailing boundary can only hold when there is no second digit. -/
def matchMonthDayAt (s : List Char) (i : Nat) : Option (List Char) :=
  (firstSome (monthNames.map (fun mn =>
    if matchCIAt s i mn then some (i + mn.length) else none))).bind (fun j =>
      let w := ((s.drop j).takeWhile isSpace).length
      if w = 0 then none
      else
        let k := j + w
        if (s.getD k ' ').isDigit then
          if (s.getD (k + 1) ' ').isDigit then
            if wordBoundary s (k + 2) then some ((s.drop i).take (k + 2 - i))
            else none
          else if wordBoundary s (k + 1) then
            some ((s.drop i).take (k + 1 - i))
          else none
        else none)

/-- Hand-compilation of `re.search` for date pattern 3,
`\b(january|...|december)\s+\d{1,2}\b`. -/
def searchMonthDay (s : List Char) : Option (List Char) :=
  firstSome ((List.range (s.length + 1)).map (fun i =>
    if wordBoundary s i then matchMonthDayAt s i else none))

/-- Numeric date `\d{1,2}/\d{1,2}/\d{2,4}\b` at offset i (no leading
boundary check here).  Each greedy digit group can only backtrack to a
shorter width when the next character is a slash or a boundary, which a
digit never is, so the alternatives below are exhaustive. -/
def matchNumDateAt (s : List Char) (i : Nat) : Option (List Char) :=
  let d : Nat → Bool := fun p => (s.getD p ' ').isDigit
  let tryYear : Nat → Option Nat := fun p =>
    if d p ∧ d (p + 1) ∧ d (p + 2) ∧ d (p + 3) ∧ wordBoundary s (p + 4) then
      some (p + 4)
    else if d p ∧ d (p + 1) ∧ d (p + 2) ∧ wordBoundary s (p + 3) then
      some (p + 3)
    else if d p ∧ d (p + 1) ∧ wordBoundary s (p + 2) then some (p + 2)
    else none
  let trySecond : Nat → Option Nat := fun p =>
    if d p ∧ d (p + 1) ∧ s.getD (p + 2) ' ' == '/' then some (p + 3)
    else if d p ∧ s.getD (p + 1) ' ' == '/' then some (p + 2)
    else none
  let after1 : Nat → Option (List Char) := fun p =>
    (trySecond p).bind (fun q =>
      (tryYear q).map (fun e => (s.drop i).take (e - i)))
  if d i ∧ d (i + 1) ∧ s.getD (i + 2) ' ' == '/' then after1 (i + 3)
  else if d i ∧ s.getD (i + 1) ' ' == '/' then after1 (i + 2)
  else none

/-- Hand-compilation of `re.search` for date pattern 4,
`\b\d{1,2}/\d{1,2}/\d{2,4}\b`. -/
def searchNumDate (s : List Char) : Option (List Char) :=
  firstSome ((List.range (s.length + 1)).map (fun i =>
    if wordBoundary s i then matchNumDateAt s i else none))

/-- Embedding of `ActionItemExtractor._extract_deadline` (lines 87-93):
first match among the four date patterns in priority order, title-cased. -/
def extract_deadline (text : List Char) : Option (List Char) :=
  (firstSome [
    searchWordAlt weekdayNames (lowerStr text),
    searchWordAlt relativeDayNames (lowerStr text),
    searchMonthDay (lowerStr text),
    searchNumDate (lowerStr text)]).map pyTitle

/-- High-priority keyword set. -/
def priorityHigh : List (List Char) :=
  ["urgent".data, "asap".data, "immediately".data, "critical".data,
   "high priority".data]

/-- Low-priority keyword set (the medium set in the source is never
consulted by `_extract_priority`). -/
def priorityLow : List (List Char) :=
  ["when possible".data, "eventually".data, "low priority".data,
   "nice to have".data]

/-- Embedding of `ActionItemExtractor._extract_priority` (lines 95-103):
high keywords first, then low, else medium. -/
def extract_priority (text : List Char) : List Char :=
  if priorityHigh.any (fun k => containsSub (lowerStr text) k) then "high".data
  else if priorityLow.any (fun k => containsSub (lowerStr text) k) then
    "low".data
  else "medium".data

/-- Discourse fillers of the first task-description sub,
`^(so|well|um|uh|okay|alright),?\s*` (case-insensitive). -/
def fillerWords : List (List Char) :=
  ["so".data, "well".data, "um".data, "uh".data, "okay".data, "alright".data]

/-- First sub of `_extract_task_description`: delete a leading filler, an
optional comma and the following whitespace. -/
def stripFillerPrefix (text : List Char) : List Char :=
  match firstSome (fillerWords.map (fun f =>
      if matchCIAt text 0 f then some f.length else none)) with
  | none => text
  | some n =>
    let n2 := if text.getD n ' ' == ',' then n + 1 else n
    text.drop (n2 + ((text.drop n2).takeWhile isSpace).length)

/-- Polite-request prefixes of the second sub,
`^(can you|could you|would you|will you)\s+` (case-insensitive). -/
def politePhrases : List (List Char) :=
  ["can you".data, "could you".data, "would you".data, "will you".data]

/-- Second sub of `_extract_task_description`: delete a leading polite
phrase followed by at least one whitespace character. -/
def stripPolitePrefix (text : List Char) : List Char :=
  match firstSome (politePhrases.map (fun f =>
      if matchCIAt text 0 f then some f.length else none)) with
  | none => text
  | some n =>
    let w := ((text.drop n).takeWhile isSpace).length
    if w = 0 then text else text.drop (n + w)

/-- Third sub of `_extract_task_description`, `^[A-Z][a-z]+,\s*`
(case-sensitive): the comma must follow the maximal lower-case run, since
backtracking into the run always meets a lower-case letter, never a
comma. -/
def stripVocativePrefix (text : List Char) : List Char :=
  match text with
  | [] => []
  | c :: cs =>
    if 'A' ≤ c ∧ c ≤ 'Z' then
      let run := (cs.takeWhile (fun d => decide ('a' ≤ d ∧ d ≤ 'z'))).length
      if 1 ≤ run ∧ cs.getD run ' ' == ',' then
        (cs.drop (run + 1)).drop
          (((cs.drop (run + 1)).takeWhile isSpace).length)
      else text
    else text

/-- Embedding of `ActionItemExtractor._extract_task_description`
(lines 105-112). -/
def extract_task_description (text : List Char) : List Char :=
  capitalizeFirst
    (pyStrip (stripVocativePrefix (stripPolitePrefix (stripFillerPrefix text))))

/-- Embedding of `ActionItemExtractor._calculate_confidence`
(lines 114-124), with the float weights as exact rationals. -/
def calculate_confidence (has_assignee has_deadline has_action_verb : Bool)
    (sentence_length : Nat) : ℚ :=
  let s1 : ℚ := if has_action_verb then 3/10 else 0
  let s2 : ℚ := if has_assignee then s1 + 3/10 else s1
  let s3 : ℚ := if has_deadline then s2 + 2/10 else s2
  let s4 : ℚ :=
    if 5 ≤ sentence_length ∧ sentence_length ≤ 30 then s3 + 2/10 else s3
  min s4 1

/-- Python `round(x, 2)` on the reachable decimal values. -/
def round2 (q : ℚ) : ℚ := ((round (q * 100) : ℤ) : ℚ) / 100

/-- One iteration of the extraction loop: the emitted item for a sentence,
if any (`ActionItemExtractor.extract`, lines 37-62). -/
def processSentence (sent : SpacySent) : Option ActionItem :=
  if ¬ contains_action_verb (pyStrip sent.text) then none
  else
    let sentence_text := pyStrip sent.text
    let assignee := extract_assignee sent
    let deadline := extract_deadline sentence_text
    let confidence := calculate_confidence assignee.isSome deadline.isSome
      true (pySplit sentence_text).length
    if 6/10 ≤ confidence ∧ extract_task_description sentence_text ≠ [] then
      some { task := extract_task_description sentence_text
             assignee := assignee.getD "Unassigned".data
             deadline := deadline.getD "No deadline specified".data
             priority := extract_priority sentence_text
             context := sentence_text
             confidence := round2 confidence }
    else none

/-- The priority rank `priority_order.get(x["priority"], 3)`. -/
def priority_order (p : List Char) : Nat :=
  if p = "high".data then 0
  else if p = "medium".data then 1
  else if p = "low".data then 2
  else 3

/-- Embedding of `ActionItemExtractor.extract` (lines 31-70) over the
collaborator output: emit per sentence in order, then stable-sort by
priority rank (Python list.sort is stable; modelled by the stable
`List.mergeSort`). -/
def extract (sents : List SpacySent) : List ActionItem :=
  (sents.filterMap processSentence).mergeSort
    (fun a b => decide (priority_order a.priority ≤ priority_order b.priority))

/-- Sentence whose only PERSON entity is the literal text "Unassigned". -/
def c10CexSent : SpacySent :=
  { text := "Unassigned will handle the deployment rollout".data
    ents := [{ text := "Unassigned".data, label := "PERSON".data }] }

/-- The item extracted from `c10CexSent`. -/
def c10CexItem : ActionItem :=
  { task := "Unassigned will handle the deployment rollout".data
    assignee := "Unassigned".data
    deadline := "No deadline specified".data
    priority := "medium".data
    context := "Unassigned will handle the deployment rollout".data
    confidence := 4/5 }

/-- Benign sentence for the C10 witness: one PERSON entity "Bob". -/
def c10WitSent : SpacySent :=
  { text := "Bob will review the deck".data
    ents := [{ text := "Bob".data, label := "PERSON".data }] }

/-- The item extracted from `c10WitSent`. -/
def c10WitItem : ActionItem :=
  { task := "Bob will review the deck".data
    assignee := "Bob".data
    deadline := "No deadline specified".data
    priority := "medium".data
    context := "Bob will review the deck".data
    confidence := 4/5 }

/-! ## Personal summary generation
(personal_insights.py lines 219-256, summarization.py lines 26-44) -/

/-- Result dictionary returned by `SummarizationService.summarize`. -/
structure SummaryResult where
  summary : List Char
  original_length : Nat
  summary_length : Nat
  compression_ratio : ℚ
deriving DecidableEq

/-- Keyword parameters accepted by the signature
`async def summarize(self, text: str, max_length: int = 200)`
(summarization.py line 26): only max_length. -/
def summarizeAcceptedKeywords : List (List Char) := ["max_length".data]

/-- A Python keyword call of `summarize`: the interpreter raises TypeError
before the body runs when a passed keyword is not in the signature.  The
body wraps an ML model and is abstracted as the collaborator argument f
applied to the text and the effective max_length. -/
def callSummarize (f : List Char → Nat → SummaryResult)
    (text : List Char) (kwargs : List (List Char × Nat)) :
    Except (List Char) SummaryResult :=
  if kwargs.all (fun kv => decide (kv.1 ∈ summarizeAcceptedKeywords)) then
    Except.ok (f text
      (((kwargs.find? (fun kv => kv.1 == "max_length".data)).map
        Prod.snd).getD 200))
  else
    Except.error "TypeError: summarize() got an unexpected keyword argument min_length".data

/-- Embedding of `PersonalInsightsService._generate_personal_summary`
(lines 219-256): transcripts shorter than 10 characters short-circuit to
the empty summary; otherwise the code calls
`summarize(personal_transcript, max_length=150, min_length=30)`, whose
min_length keyword the signature rejects; the except handler turns the
TypeError into the empty string.  The would-be success branch prefixes the
header naming the user (Char.ofNat 39 is the apostrophe of the source
f-string). -/
def generate_personal_summary (summarizer : List Char → Nat → SummaryResult)
    (personal_transcript user_name : List Char) : List Char :=
  if personal_transcript = [] ∨ personal_transcript.length < 10 then []
  else
    match callSummarize summarizer personal_transcript
        [("max_length".data, 150), ("min_length".data, 30)] with
    | Except.error _ => []
    | Except.ok result =>
      if result.summary ≠ [] then
        "Summary for ".data ++ user_name ++ [Char.ofNat 39]
          ++ "s involvement in the meeting:\n".data ++ result.summary
      else []

/-- Sample transcription used to instantiate hypothesis-bearing theorems. -/
def sampleTranscription : Transcription :=
  { text := "Hello there friends".data
    segments := [{ start := 0, «end» := 5, text := "Hello there friends".data }]
    language := some "en".data }

/-- Sample diarization with two overlapping intervals (the first in input
order must win). -/
def sampleDia : List DiaInterval :=
  [{ start := 4, «end» := 6, speaker := "SPEAKER_1".data },
   { start := 0, «end» := 10, speaker := "SPEAKER_2".data }]

/-! ## Theorems -/

/-- Helper: the aligner keeps one output segment per input segment. -/
theorem merge_segments_length (t : Transcription) (dia : List DiaInterval) :
    (merge_transcription_diarization t dia).segments.length =
      t.segments.length := by
  unfold merge_transcription_diarization
  by_cases h : dia = [] <;> simp [h]

/-- Helper: `findSpeaker` returns the speaker of the first overlapping
interval in input order, or the default when none overlaps. -/
theorem findSpeaker_spec (seg : TransSeg) (dia : List DiaInterval) :
    (∃ l₁ d l₂, dia = l₁ ++ d :: l₂ ∧ overlaps seg d ∧
        findSpeaker seg.start seg.«end» dia = d.speaker ∧
        ∀ d2 ∈ l₁, ¬ overlaps seg d2) ∨
      ((∀ d ∈ dia, ¬ overlaps seg d) ∧
        findSpeaker seg.start seg.«end» dia = defaultSpeaker) := by
  induction dia with
  | nil => right; simp [findSpeaker]
  | cons d rest ih =>
    by_cases hov : overlaps seg d
    · left
      refine ⟨[], d, rest, by simp, hov, ?_, by simp⟩
      simp only [findSpeaker]
      rw [if_pos ⟨hov.1, hov.2⟩]
    · have hstep : findSpeaker seg.start seg.«end» (d :: rest) =
          findSpeaker seg.start seg.«end» rest := by
        simp only [findSpeaker]
        rw [if_neg]
        intro hc
        exact hov ⟨hc.1, hc.2⟩
      rcases ih with ⟨l₁, d1, l₂, hsplit, hov1, heq, hfirst⟩ | ⟨hnone, heq⟩
      · left
        refine ⟨d :: l₁, d1, l₂, by simp [hsplit], hov1, by rw [hstep]; exact heq, ?_⟩
        intro d2 hd2
        rcases List.mem_cons.mp hd2 with h | h
        · subst h; exact hov
        · exact hfirst d2 h
      · right
        constructor
        · intro d2 hd2
          rcases List.mem_cons.mp hd2 with h | h
          · subst h; exact hov
          · exact hnone d2 h
        · rw [hstep]; exact heq

/-- Claim C1: for every transcription segment the aligner assigns the speaker
of the first diarization interval in input order satisfying strict temporal
overlap (dia.start < seg.end and dia.end > seg.start); if the diarization
list is empty or no interval overlaps the segment, it assigns the default
label "Speaker_0"; consequently every output speaker is a diarization
speaker label or the sentinel, never absent. -/
theorem c1_interval_alignment (t : Transcription) (dia : List DiaInterval)
    (i : Nat) (h : i < (merge_transcription_diarization t dia).segments.length) :
    ∃ hlen : i < t.segments.length,
      ((∃ l₁ d l₂, dia = l₁ ++ d :: l₂ ∧
          overlaps (t.segments.get ⟨i, hlen⟩) d ∧
          ((merge_transcription_diarization t dia).segments.get ⟨i, h⟩).speaker
            = d.speaker ∧
          ∀ d2 ∈ l₁, ¬ overlaps (t.segments.get ⟨i, hlen⟩) d2) ∨
        ((∀ d ∈ dia, ¬ overlaps (t.segments.get ⟨i, hlen⟩) d) ∧
          ((merge_transcription_diarization t dia).segments.get ⟨i, h⟩).speaker
            = defaultSpeaker)) ∧
      (((merge_transcription_diarization t dia).segments.get ⟨i, h⟩).speaker
          ∈ dia.map DiaInterval.speaker ∨
        ((merge_transcription_diarization t dia).segments.get ⟨i, h⟩).speaker
          = defaultSpeaker) := by
  have hlen : i < t.segments.length := by
    rw [← merge_segments_length t dia]; exact h
  refine ⟨hlen, ?_⟩
  by_cases hd : dia = []
  · subst hd
    have hsp : ((merge_transcription_diarization t []).segments.get ⟨i, h⟩).speaker
        = defaultSpeaker := by
      simp [merge_transcription_diarization, List.get_eq_getElem]
    exact ⟨Or.inr ⟨by simp, hsp⟩, Or.inr hsp⟩
  · have hsp : ((merge_transcription_diarization t dia).segments.get ⟨i, h⟩).speaker
        = findSpeaker (t.segments.get ⟨i, hlen⟩).start
            (t.segments.get ⟨i, hlen⟩).«end» dia := by
      simp [merge_transcription_diarization, hd, List.get_eq_getElem]
    rcases findSpeaker_spec (t.segments.get ⟨i, hlen⟩) dia with
      ⟨l₁, d, l₂, hsplit, hov, heq, hfirst⟩ | ⟨hnone, heq⟩
    · refine ⟨Or.inl ⟨l₁, d, l₂, hsplit, hov, by rw [hsp]; exact heq, hfirst⟩, Or.inl ?_⟩
      rw [hsp, heq]
      exact List.mem_map_of_mem DiaInterval.speaker (by simp [hsplit])
    · exact ⟨Or.inr ⟨hnone, by rw [hsp]; exact heq⟩, Or.inr (by rw [hsp]; exact heq)⟩

/-- Witness for C1 at a concrete input: one segment, two overlapping
intervals; the first interval in input order is selected. -/
theorem c1_interval_alignment_witness :
    ∃ hlen : 0 < sampleTranscription.segments.length,
      ((∃ l₁ d l₂, sampleDia = l₁ ++ d :: l₂ ∧
          overlaps (sampleTranscription.segments.get ⟨0, hlen⟩) d ∧
          ((merge_transcription_diarization sampleTranscription sampleDia).segments.get
              ⟨0, by decide⟩).speaker = d.speaker ∧
          ∀ d2 ∈ l₁, ¬ overlaps (sampleTranscription.segments.get ⟨0, hlen⟩) d2) ∨
        ((∀ d ∈ sampleDia, ¬ overlaps (sampleTranscription.segments.get ⟨0, hlen⟩) d) ∧
          ((merge_transcription_diarization sampleTranscription sampleDia).segments.get
              ⟨0, by decide⟩).speaker = defaultSpeaker)) ∧
      (((merge_transcription_diarization sampleTranscription sampleDia).segments.get
            ⟨0, by decide⟩).speaker ∈ sampleDia.map DiaInterval.speaker ∨
        ((merge_transcription_diarization sampleTranscription sampleDia).segments.get
            ⟨0, by decide⟩).speaker = defaultSpeaker) :=
  c1_interval_alignment sampleTranscription sampleDia 0 (by decide)

/-- Claim C9: the aligner is a frame extension: exactly one output segment
per input segment, same order, with start, end and text copied unchanged;
only the speaker field is added.  The full text is passed through. -/
theorem c9_aligner_frame (t : Transcription) (dia : List DiaInterval) :
    (merge_transcription_diarization t dia).segments.length = t.segments.length ∧
    (merge_transcription_diarization t dia).full_text = t.text ∧
    ∀ i (h : i < (merge_transcription_diarization t dia).segments.length)
      (h2 : i < t.segments.length),
      ((merge_transcription_diarization t dia).segments.get ⟨i, h⟩).start
          = (t.segments.get ⟨i, h2⟩).start ∧
      ((merge_transcription_diarization t dia).segments.get ⟨i, h⟩).«end»
          = (t.segments.get ⟨i, h2⟩).«end» ∧
      ((merge_transcription_diarization t dia).segments.get ⟨i, h⟩).text
          = (t.segments.get ⟨i, h2⟩).text := by
  refine ⟨merge_segments_length t dia, ?_, ?_⟩
  · simp [merge_transcription_diarization]
  · intro i h h2
    by_cases hd : dia = [] <;>
      simp [merge_transcription_diarization, hd, List.get_eq_getElem]

/-- Witness for C9 at a concrete input. -/
theorem c9_aligner_frame_witness :
    (merge_transcription_diarization sampleTranscription sampleDia).segments.length
        = sampleTranscription.segments.length ∧
    (merge_transcription_diarization sampleTranscription sampleDia).full_text
        = sampleTranscription.text ∧
    ((merge_transcription_diarization sampleTranscription sampleDia).segments.get
        ⟨0, by decide⟩).text = (sampleTranscription.segments.get ⟨0, by decide⟩).text :=
  ⟨(c9_aligner_frame sampleTranscription sampleDia).1,
   (c9_aligner_frame sampleTranscription sampleDia).2.1,
   ((c9_aligner_frame sampleTranscription sampleDia).2.2 0 (by decide) (by decide)).2.2⟩

/-- Helper: the kept mentions form a sublist of the scanned tail. -/
theorem dedupGo_sublist (l : List Mention) (last : Mention) :
    (dedupGo last l).Sublist l := by
  induction l generalizing last with
  | nil => simp [dedupGo]
  | cons m rest ih =>
    by_cases h : m.position < last.end_position + 5
    · simp only [dedupGo, if_pos h]
      exact (ih last).trans (List.sublist_cons_self m rest)
    · simp only [dedupGo, if_neg h]
      exact List.Sublist.cons₂ m (ih m)

/-- Helper: every pair of consecutive kept mentions respects the
5-character gap, unconditionally. -/
theorem dedupGo_chain (l : List Mention) (last : Mention) :
    List.Chain' mentionGap (last :: dedupGo last l) := by
  induction l generalizing last with
  | nil => simp [dedupGo]
  | cons m rest ih =>
    by_cases h : m.position < last.end_position + 5
    · simpa only [dedupGo, if_pos h] using ih last
    · simp only [dedupGo, if_neg h]
      exact List.Chain'.cons (by unfold mentionGap; omega) (ih m)

/-- Helper: transitivity and totality of the position comparator. -/
theorem posLe_trans :
    ∀ a b c : Mention, decide (a.position ≤ b.position) = true →
      decide (b.position ≤ c.position) = true →
      decide (a.position ≤ c.position) = true := by
  intro a b c h1 h2
  simp only [decide_eq_true_eq] at *
  omega

/-- Helper: the position comparator is total. -/
theorem posLe_total :
    ∀ a b : Mention, (decide (a.position ≤ b.position)
      || decide (b.position ≤ a.position)) = true := by
  intro a b
  rcases Nat.le_total a.position b.position with h | h <;> simp [h]

/-- Helper: deduplication output is sorted by position and satisfies the
gap invariant. -/
theorem deduplicate_mentions_spec (ms : List Mention) :
    List.Sorted (fun a b : Mention => a.position ≤ b.position)
        (deduplicate_mentions ms) ∧
      List.Chain' mentionGap (deduplicate_mentions ms) := by
  have hsorted := List.sorted_mergeSort posLe_trans posLe_total ms
  unfold deduplicate_mentions
  cases hms : ms.mergeSort (fun a b => decide (a.position ≤ b.position)) with
  | nil => simp
  | cons m rest =>
    rw [hms] at hsorted
    constructor
    · have hsub : (m :: dedupGo m rest).Sublist (m :: rest) :=
        List.Sublist.cons₂ m (dedupGo_sublist rest m)
      have := hsorted.sublist hsub
      exact this.imp (by intro a b h; simpa using h)
    · exact dedupGo_chain rest m

/-- Claim C2: for every input mention list, the deduplicated mention list is
sorted ascending by position, and no two consecutive retained mentions
satisfy next.position < previous.end_position + 5; the same holds for the
full `_find_mentions` output (which re-sorts the deduplicated list). -/
theorem c2_mention_deduplication (ms : List Mention) (transcript : List Char)
    (vars : List (List Char)) :
    (List.Sorted (fun a b : Mention => a.position ≤ b.position)
        (deduplicate_mentions ms) ∧
      List.Chain' (fun a b : Mention => ¬ (b.position < a.end_position + 5))
        (deduplicate_mentions ms)) ∧
    (List.Sorted (fun a b : Mention => a.position ≤ b.position)
        (find_mentions transcript vars) ∧
      List.Chain' (fun a b : Mention => ¬ (b.position < a.end_position + 5))
        (find_mentions transcript vars)) := by
  have key : ∀ l : List Mention,
      List.Sorted (fun a b : Mention => a.position ≤ b.position) l →
      List.Chain' mentionGap l →
      List.Sorted (fun a b : Mention => a.position ≤ b.position) l ∧
        List.Chain' (fun a b : Mention => ¬ (b.position < a.end_position + 5)) l := by
    intro l hs hc
    exact ⟨hs, hc.imp (by intro a b h; unfold mentionGap at h; omega)⟩
  have hdedup := deduplicate_mentions_spec ms
  have hfind : find_mentions transcript vars =
      deduplicate_mentions (findMentionsRaw transcript vars) := by
    unfold find_mentions
    apply List.mergeSort_of_sorted
    exact (deduplicate_mentions_spec (findMentionsRaw transcript vars)).1.imp
      (by intro a b h; simpa using h)
  refine ⟨key _ hdedup.1 hdedup.2, ?_⟩
  rw [hfind]
  exact key _ (deduplicate_mentions_spec (findMentionsRaw transcript vars)).1
    (deduplicate_mentions_spec (findMentionsRaw transcript vars)).2

/-- Helper: no nonempty proper suffix of the opening tag is a prefix of the
opening tag (the tag has no border). -/
theorem openTag_drop_not_prefix_openTag :
    ∀ j, j < 9 → 1 ≤ j → ¬ (openTag.drop j <+: openTag) := by decide

/-- Helper: no nonempty proper suffix of the opening tag is a prefix of the
closing tag. -/
theorem openTag_drop_not_prefix_closeTag :
    ∀ j, j < 9 → 1 ≤ j → ¬ (openTag.drop j <+: closeTag) := by decide

/-- Helper: no nonempty proper suffix of the closing tag is a prefix of the
opening tag. -/
theorem closeTag_drop_not_prefix_openTag :
    ∀ j, j < 10 → 1 ≤ j → ¬ (closeTag.drop j <+: openTag) := by decide

/-- Helper: no nonempty proper suffix of the closing tag is a prefix of the
closing tag. -/
theorem closeTag_drop_not_prefix_closeTag :
    ∀ j, j < 10 → 1 ≤ j → ¬ (closeTag.drop j <+: closeTag) := by decide

/-- Helper: splitting a prefix relation at an append boundary. -/
theorem prefix_split {T s y : List Char} (h : T <+: s ++ y)
    (hlen : s.length ≤ T.length) :
    s <+: T ∧ T.drop s.length <+: y := by
  have hs : s <+: s ++ y := List.prefix_append s y
  have hsT : s <+: T := List.prefix_of_prefix_length_le hs h hlen
  have hTeq : T = s ++ T.drop s.length := by
    conv_lhs => rw [← List.take_append_drop s.length T]
    rw [← List.prefix_iff_eq_take.mp hsT]
  obtain ⟨u, hu⟩ := h
  rw [hTeq, List.append_assoc] at hu
  exact ⟨hsT, ⟨u, List.append_cancel_left hu⟩⟩

/-- Helper: no marker tag starts inside a tag-free block followed by a tag:
the window would need a border of a tag, and the tags have none. -/
theorem tag_not_prefix_boundary {g : List Char} (A R : List Char)
    (hA : A = openTag ∨ A = closeTag)
    (hg1 : ¬ openTag <:+: g) (hg2 : ¬ closeTag <:+: g) :
    ∀ s, s <:+ g → s ≠ [] →
      ¬ openTag <+: (s ++ (A ++ R)) ∧ ¬ closeTag <+: (s ++ (A ++ R)) := by
  intro s hsuf hne
  have hA9 : 9 ≤ A.length := by
    rcases hA with h | h <;> simp [h, openTag, closeTag]
  have hspos : 1 ≤ s.length := List.length_pos.mpr hne
  constructor
  · intro hpre
    by_cases hlen : openTag.length ≤ s.length
    · have hin : openTag <+: s :=
        List.prefix_of_prefix_length_le hpre (List.prefix_append s (A ++ R)) hlen
      exact hg1 (hin.isInfix.trans hsuf.isInfix)
    · push_neg at hlen
      obtain ⟨_, hdrop⟩ := prefix_split hpre (le_of_lt hlen)
      have hlen9 : openTag.length = 9 := by decide
      have hd2 : openTag.drop s.length <+: A := by
        apply List.prefix_of_prefix_length_le hdrop (List.prefix_append A R)
        simp only [List.length_drop, hlen9]
        omega
      rcases hA with h | h
      · rw [h] at hd2
        exact openTag_drop_not_prefix_openTag s.length (by omega) hspos hd2
      · rw [h] at hd2
        exact openTag_drop_not_prefix_closeTag s.length (by omega) hspos hd2
  · intro hpre
    by_cases hlen : closeTag.length ≤ s.length
    · have hin : closeTag <+: s :=
        List.prefix_of_prefix_length_le hpre (List.prefix_append s (A ++ R)) hlen
      exact hg2 (hin.isInfix.trans hsuf.isInfix)
    · push_neg at hlen
      obtain ⟨_, hdrop⟩ := prefix_split hpre (le_of_lt hlen)
      have hlen10 : closeTag.length = 10 := by decide
      have hd2 : closeTag.drop s.length <+: A := by
        apply List.prefix_of_prefix_length_le hdrop (List.prefix_append A R)
        simp only [List.length_drop, hlen10]
        omega
      rcases hA with h | h
      · rw [h] at hd2
        exact closeTag_drop_not_prefix_openTag s.length (by omega) hspos hd2
      · rw [h] at hd2
        exact closeTag_drop_not_prefix_closeTag s.length (by omega) hspos hd2

/-- Helper: scanning step when no tag starts at the head. -/
theorem stripTags_cons_not_tag (c : Char) (cs : List Char)
    (h1 : ¬ openTag <+: (c :: cs)) (h2 : ¬ closeTag <+: (c :: cs)) :
    stripTags (c :: cs) = c :: stripTags cs := by
  rw [stripTags]
  rw [if_neg (by simpa [List.isPrefixOf_iff_prefix] using h1),
    if_neg (by simpa [List.isPrefixOf_iff_prefix] using h2)]

/-- Helper: the scan deletes an opening tag at the head. -/
theorem stripTags_openTag_append (l : List Char) :
    stripTags (openTag ++ l) = stripTags l := by
  show stripTags ('[' :: ("MENTION]".data ++ l)) = stripTags l
  rw [stripTags]
  have hp : openTag.isPrefixOf ('[' :: ("MENTION]".data ++ l)) = true := by
    rw [List.isPrefixOf_iff_prefix]
    exact List.prefix_append openTag l
  rw [if_pos hp]
  congr 1

/-- Helper: the scan deletes a closing tag at the head. -/
theorem stripTags_closeTag_append (l : List Char) :
    stripTags (closeTag ++ l) = stripTags l := by
  show stripTags ('[' :: ("/MENTION]".data ++ l)) = stripTags l
  rw [stripTags]
  have hno : ¬ (openTag.isPrefixOf ('[' :: ("/MENTION]".data ++ l)) = true) := by
    rw [List.isPrefixOf_iff_prefix]
    intro h
    have h2 : openTag <+: closeTag :=
      List.prefix_of_prefix_length_le h (List.prefix_append closeTag l) (by decide)
    exact absurd h2 (by decide)
  rw [if_neg hno]
  have hp : closeTag.isPrefixOf ('[' :: ("/MENTION]".data ++ l)) = true := by
    rw [List.isPrefixOf_iff_prefix]
    exact List.prefix_append closeTag l
  rw [if_pos hp]
  congr 1

/-- Helper: stripping tags from a tag-free string is the identity. -/
theorem stripTags_of_clean (t : List Char) (h1 : ¬ openTag <:+: t)
    (h2 : ¬ closeTag <:+: t) : stripTags t = t := by
  induction t with
  | nil => rw [stripTags]
  | cons c cs ih =>
    rw [stripTags_cons_not_tag c cs (fun hp => h1 hp.isInfix)
      (fun hp => h2 hp.isInfix)]
    have hcs : cs <:+: c :: cs := (List.suffix_cons c cs).isInfix
    rw [ih (fun hp => h1 (hp.trans hcs)) (fun hp => h2 (hp.trans hcs))]

/-- Helper: the scan passes over a block g unchanged when no tag can start
inside g (including windows reaching into the continuation). -/
theorem stripTags_append_clean (g : List Char) :
    ∀ Z : List Char,
      (∀ s, s <:+ g → s ≠ [] → ¬ openTag <+: (s ++ Z) ∧ ¬ closeTag <+: (s ++ Z)) →
      stripTags (g ++ Z) = g ++ stripTags Z := by
  induction g with
  | nil => intro Z _; simp
  | cons c cs ih =>
    intro Z h
    have hc := h (c :: cs) (List.suffix_refl _) (by simp)
    have step : stripTags ((c :: cs) ++ Z) = c :: stripTags (cs ++ Z) :=
      stripTags_cons_not_tag c (cs ++ Z) hc.1 hc.2
    rw [step, ih Z (fun s hs hne => h s (hs.trans (List.suffix_cons c cs)) hne)]
    rfl

/-- Helper: folding the replacement step over an ascending mention list
(which is how processing the descending list right-to-left looks) produces
the spliced shape. -/
theorem foldr_highlight_splice (transcript : List Char) :
    ∀ (l : List Mention) (k : Nat),
      (∀ m ∈ l, wellFormedMention transcript m) →
      List.Chain' mentionGap l →
      (∀ m ∈ l.head?, k ≤ m.position) →
      List.foldr (fun m acc => highlightStep acc m) transcript l
        = transcript.take k ++ spliceAux transcript l k := by
  intro l
  induction l with
  | nil =>
    intro k _ _ _
    simp [spliceAux]
  | cons m rest ih =>
    intro k hwf hchain hk
    obtain ⟨hpe, hel, _⟩ := hwf m (List.mem_cons_self m rest)
    have hrest_wf : ∀ x ∈ rest, wellFormedMention transcript x :=
      fun x hx => hwf x (List.mem_cons_of_mem m hx)
    have hk_rest : ∀ x ∈ rest.head?, m.end_position ≤ x.position := by
      intro x hx
      cases rest with
      | nil => simp at hx
      | cons y ys =>
        simp only [List.head?_cons, Option.mem_some_iff] at hx
        subst hx
        have := (List.chain'_cons.mp hchain).1
        unfold mentionGap at this
        omega
    have hkm : k ≤ m.position := hk m (by simp)
    rw [List.foldr_cons, ih m.end_position hrest_wf hchain.tail hk_rest]
    show (transcript.take m.end_position
          ++ spliceAux transcript rest m.end_position).take m.position
        ++ openTag ++ m.matched_text ++ closeTag
        ++ (transcript.take m.end_position
          ++ spliceAux transcript rest m.end_position).drop m.end_position
      = transcript.take k ++ spliceAux transcript (m :: rest) k
    have hlen_take : (transcript.take m.end_position).length = m.end_position := by
      simp [List.length_take]
      omega
    have h1 : (transcript.take m.end_position
        ++ spliceAux transcript rest m.end_position).take m.position
        = transcript.take m.position := by
      rw [List.take_append_of_le_length (by omega), List.take_take,
        min_eq_left hpe]
    have h2 : (transcript.take m.end_position
        ++ spliceAux transcript rest m.end_position).drop m.end_position
        = spliceAux transcript rest m.end_position := by
      have hgen : ∀ (pre suf : List Char), pre.length = m.end_position →
          (pre ++ suf).drop m.end_position = suf := by
        intro pre suf hp
        rw [← hp]
        exact List.drop_left _ _
      exact hgen _ _ hlen_take
    rw [h1, h2]
    have h3 : transcript.take m.position
        = transcript.take k ++ (transcript.drop k).take (m.position - k) := by
      rw [← List.take_add]
      congr 1
      omega
    rw [h3]
    show transcript.take k ++ (transcript.drop k).take (m.position - k)
        ++ openTag ++ m.matched_text ++ closeTag
        ++ spliceAux transcript rest m.end_position
      = transcript.take k
        ++ ((transcript.drop k).take (m.position - k) ++ openTag
          ++ m.matched_text ++ closeTag
          ++ spliceAux transcript rest m.end_position)
    simp [List.append_assoc]

/-- Helper: stripping the spliced shape recovers the transcript suffix. -/
theorem stripTags_spliceAux (transcript : List Char)
    (hclean1 : ¬ openTag <:+: transcript) (hclean2 : ¬ closeTag <:+: transcript) :
    ∀ (l : List Mention) (k : Nat),
      (∀ m ∈ l, wellFormedMention transcript m) →
      List.Chain' mentionGap l →
      (∀ m ∈ l.head?, k ≤ m.position) →
      stripTags (spliceAux transcript l k) = transcript.drop k := by
  intro l
  induction l with
  | nil =>
    intro k _ _ _
    show stripTags (transcript.drop k) = transcript.drop k
    exact stripTags_of_clean _
      (fun h => hclean1 (h.trans (List.drop_suffix k transcript).isInfix))
      (fun h => hclean2 (h.trans (List.drop_suffix k transcript).isInfix))
  | cons m rest ih =>
    intro k hwf hchain hk
    obtain ⟨hpe, hel, hmt⟩ := hwf m (List.mem_cons_self m rest)
    have hrest_wf : ∀ x ∈ rest, wellFormedMention transcript x :=
      fun x hx => hwf x (List.mem_cons_of_mem m hx)
    have hk_rest : ∀ x ∈ rest.head?, m.end_position ≤ x.position := by
      intro x hx
      cases rest with
      | nil => simp at hx
      | cons y ys =>
        simp only [List.head?_cons, Option.mem_some_iff] at hx
        subst hx
        have := (List.chain'_cons.mp hchain).1
        unfold mentionGap at this
        omega
    have hkm : k ≤ m.position := hk m (by simp)
    have hg_infix : (transcript.drop k).take (m.position - k) <:+: transcript :=
      (List.take_prefix _ _).isInfix.trans (List.drop_suffix k transcript).isInfix
    have hg1 : ¬ openTag <:+: (transcript.drop k).take (m.position - k) :=
      fun h => hclean1 (h.trans hg_infix)
    have hg2 : ¬ closeTag <:+: (transcript.drop k).take (m.position - k) :=
      fun h => hclean2 (h.trans hg_infix)
    have hmt_infix : m.matched_text <:+: transcript := by
      rw [hmt]
      exact (List.take_prefix _ _).isInfix.trans
        (List.drop_suffix m.position transcript).isInfix
    have hm1 : ¬ openTag <:+: m.matched_text :=
      fun h => hclean1 (h.trans hmt_infix)
    have hm2 : ¬ closeTag <:+: m.matched_text :=
      fun h => hclean2 (h.trans hmt_infix)
    show stripTags ((transcript.drop k).take (m.position - k) ++ openTag
        ++ m.matched_text ++ closeTag ++ spliceAux transcript rest m.end_position)
      = transcript.drop k
    have hassoc : (transcript.drop k).take (m.position - k) ++ openTag
        ++ m.matched_text ++ closeTag ++ spliceAux transcript rest m.end_position
        = (transcript.drop k).take (m.position - k)
          ++ (openTag ++ (m.matched_text ++ (closeTag
            ++ spliceAux transcript rest m.end_position))) := by
      simp [List.append_assoc]
    rw [hassoc]
    rw [stripTags_append_clean _ _
      (tag_not_prefix_boundary openTag
        (m.matched_text ++ (closeTag ++ spliceAux transcript rest m.end_position))
        (Or.inl rfl) hg1 hg2)]
    rw [stripTags_openTag_append]
    rw [stripTags_append_clean _ _
      (tag_not_prefix_boundary closeTag
        (spliceAux transcript rest m.end_position) (Or.inr rfl) hm1 hm2)]
    rw [stripTags_closeTag_append]
    rw [ih m.end_position hrest_wf hchain.tail hk_rest]
    rw [hmt]
    have e2 : (transcript.drop m.position).take (m.end_position - m.position)
        ++ transcript.drop m.end_position = transcript.drop m.position := by
      conv_rhs =>
        rw [← List.take_append_drop (m.end_position - m.position)
          (transcript.drop m.position)]
      congr 1
      rw [List.drop_drop]
      congr 1
      omega
    have e1 : (transcript.drop k).take (m.position - k)
        ++ transcript.drop m.position = transcript.drop k := by
      conv_rhs =>
        rw [← List.take_append_drop (m.position - k) (transcript.drop k)]
      congr 1
      rw [List.drop_drop]
      congr 1
      omega
    rw [e2]
    exact e1

/-- Helper: under well-formedness the gap chain gives strictly ascending
positions. -/
theorem chain_gap_strict (transcript : List Char) :
    ∀ l : List Mention,
      (∀ m ∈ l, wellFormedMention transcript m) →
      List.Chain' mentionGap l →
      List.Pairwise (fun a b : Mention => a.position < b.position) l := by
  intro l
  induction l with
  | nil => simp
  | cons m rest ih =>
    intro hwf hchain
    have hrest_wf : ∀ x ∈ rest, wellFormedMention transcript x :=
      fun x hx => hwf x (List.mem_cons_of_mem m hx)
    have hpw := ih hrest_wf hchain.tail
    rw [List.pairwise_cons]
    refine ⟨?_, hpw⟩
    cases rest with
    | nil => simp
    | cons y ys =>
      have hgap : mentionGap m y := (List.chain'_cons.mp hchain).1
      have hme := (hwf m (List.mem_cons_self m _)).1
      have hmy : m.position < y.position := by
        unfold mentionGap at hgap
        omega
      intro b hb
      rcases List.mem_cons.mp hb with h | h
      · subst h; exact hmy
      · have := (List.pairwise_cons.mp hpw).1 b h
        omega

/-- Helper: the stable descending sort of a strictly ascending mention list
is its reverse. -/
theorem mergeSort_desc_eq_reverse (l : List Mention)
    (h : List.Pairwise (fun a b : Mention => a.position < b.position) l) :
    l.mergeSort (fun a b => decide (b.position ≤ a.position)) = l.reverse := by
  haveI : IsAntisymm Mention (fun a b : Mention => b.position < a.position) :=
    ⟨fun a b h1 h2 => absurd (lt_trans h1 h2) (lt_irrefl _)⟩
  have htrans : ∀ a b c : Mention, decide (b.position ≤ a.position) = true →
      decide (c.position ≤ b.position) = true →
      decide (c.position ≤ a.position) = true := by
    intro a b c h1 h2
    simp only [decide_eq_true_eq] at *
    omega
  have htotal : ∀ a b : Mention, (decide (b.position ≤ a.position)
      || decide (a.position ≤ b.position)) = true := by
    intro a b
    rcases Nat.le_total a.position b.position with hl | hl <;> simp [hl]
  have hperm : (l.mergeSort (fun a b => decide (b.position ≤ a.position))).Perm l :=
    List.mergeSort_perm l _
  apply List.eq_of_perm_of_sorted
    (r := fun a b : Mention => b.position < a.position)
    (hperm.trans (List.reverse_perm l).symm)
  · have hsorted := List.sorted_mergeSort htrans htotal l
    have hnodup : (l.map Mention.position).Nodup :=
      List.pairwise_map.mpr (h.imp fun hab => Nat.ne_of_lt hab)
    have hnodup2 :
        ((l.mergeSort (fun a b => decide (b.position ≤ a.position))).map
          Mention.position).Nodup :=
      ((hperm.map Mention.position).nodup_iff).mpr hnodup
    have hne := List.pairwise_map.mp hnodup2
    have hle : List.Pairwise (fun a b : Mention => b.position ≤ a.position)
        (l.mergeSort (fun a b => decide (b.position ≤ a.position))) :=
      hsorted.imp (by intro a b hh; simpa using hh)
    exact (hle.and hne).imp (by intro a b hh; omega)
  · exact List.pairwise_reverse.mpr h

/-- Claim C3 (amended): for every transcript that itself contains no
highlight marker, and every well-formed, deduplicated mention list
(spans inside the transcript, matched text equal to the spanned slice, and
consecutive mentions separated by the 5-character gap), removing all
markers from the highlighted transcript reproduces the transcript. -/
theorem c3_highlight_roundtrip (transcript : List Char) (mentions : List Mention)
    (hclean1 : ¬ openTag <:+: transcript) (hclean2 : ¬ closeTag <:+: transcript)
    (hwf : ∀ m ∈ mentions, wellFormedMention transcript m)
    (hchain : List.Chain' mentionGap mentions) :
    stripTags (build_highlighted_transcript transcript mentions) = transcript := by
  unfold build_highlighted_transcript
  by_cases hnil : mentions = []
  · rw [if_pos hnil]
    exact stripTags_of_clean transcript hclean1 hclean2
  · rw [if_neg hnil]
    have hpw := chain_gap_strict transcript mentions hwf hchain
    rw [mergeSort_desc_eq_reverse mentions hpw, List.foldl_reverse]
    rw [foldr_highlight_splice transcript mentions 0 hwf hchain
      (by intro m _; exact Nat.zero_le _)]
    rw [List.take_zero, List.nil_append]
    rw [stripTags_spliceAux transcript hclean1 hclean2 mentions 0 hwf hchain
      (by intro m _; exact Nat.zero_le _)]
    exact List.drop_zero transcript

/-- Counterexample to C3 as stated: for a transcript that itself contains a
marker tag, the well-formed, deduplicated, position-sorted singleton mention
list still fails the round trip, because removing all markers also removes
the marker text belonging to the original transcript. -/
theorem c3_roundtrip_counterexample :
    wellFormedMention c3CexTranscript c3CexMention ∧
    List.Chain' mentionGap [c3CexMention] ∧
    stripTags (build_highlighted_transcript c3CexTranscript [c3CexMention])
      ≠ c3CexTranscript := by
  refine ⟨by decide, List.chain'_singleton _, ?_⟩
  have hbuild : build_highlighted_transcript c3CexTranscript [c3CexMention]
      = openTag ++ (' ' :: (openTag ++ ('A' :: 'l' :: closeTag))) := by
    unfold build_highlighted_transcript
    rw [if_neg (by simp)]
    rw [List.mergeSort_of_sorted (by simp)]
    show highlightStep c3CexTranscript c3CexMention
      = openTag ++ (' ' :: (openTag ++ ('A' :: 'l' :: closeTag)))
    decide
  rw [hbuild, stripTags_openTag_append,
    stripTags_cons_not_tag ' ' _ (by decide) (by decide),
    stripTags_openTag_append,
    stripTags_cons_not_tag 'A' _ (by decide) (by decide),
    stripTags_cons_not_tag 'l' _ (by decide) (by decide)]
  have hclose : stripTags closeTag = [] := by
    have := stripTags_closeTag_append []
    simpa [stripTags] using this
  rw [hclose]
  decide

/-- Witness for the amended C3 at a concrete marker-free input. -/
theorem c3_highlight_roundtrip_witness :
    stripTags (build_highlighted_transcript c3WitTranscript [c3WitMention])
      = c3WitTranscript :=
  c3_highlight_roundtrip c3WitTranscript [c3WitMention] (by decide) (by decide)
    (by intro m hm; simp at hm; subst hm; decide)
    (List.chain'_singleton _)

/-- Counterexample to C6 as stated: for the single-word username "Bob" the
personal-insight synthesizer additionally generates the lower-cased initial
"b", so the two services do not share the claimed variation set. -/
theorem c6_name_variations_counterexample :
    (' ' ∉ "Bob".data) ∧
    "b".data ∈ pi_generate_name_variations "Bob".data ∧
    "b".data ≠ lowerStr "Bob".data ∧
    mt_generate_name_variations "Bob".data = some [lowerStr "Bob".data] := by
  decide

/-- Claim C6 (amended): the mention tracker generates exactly the
lower-cased full name for a space-free username, and exactly the lower-cased
full name, first token and initials for a username containing a space; the
personal-insight synthesizer generates the same except that it adds the
lower-cased initials even for single-word names (and adds the first token
only when there are at least two tokens).  Both are deduplicated as sets. -/
theorem c6_name_variations (username : List Char) :
    ((' ' ∉ username) →
      mt_generate_name_variations username = some [lowerStr username]) ∧
    (∀ w ws, ' ' ∈ username → pySplit username = w :: ws →
      ∃ vs, mt_generate_name_variations username = some vs ∧
        ∀ x, x ∈ vs ↔ (x = lowerStr username ∨ x = lowerStr w ∨
          x = lowerStr (nameInitials username))) ∧
    (∀ x, x ∈ pi_generate_name_variations username ↔
      (x = lowerStr username ∨
        (∃ p q qs, pySplit username = p :: q :: qs ∧ x = lowerStr p) ∨
        (nameInitials username ≠ [] ∧
          x = lowerStr (nameInitials username)))) := by
  refine ⟨?_, ?_, ?_⟩
  · intro hns
    unfold mt_generate_name_variations
    rw [if_neg hns]
    simp
  · intro w ws hsp hsplit
    unfold mt_generate_name_variations
    rw [if_pos hsp, hsplit]
    refine ⟨_, rfl, ?_⟩
    intro x
    simp only [List.mem_dedup]
    simp
  · intro x
    unfold pi_generate_name_variations
    by_cases hinit : (nameInitials username).isEmpty
    · have hinit2 : nameInitials username = [] := by
        simpa [List.isEmpty_iff] using hinit
      cases hps : pySplit username with
      | nil => simp [hinit, hps, hinit2]
      | cons p rest =>
        cases rest with
        | nil => simp [hinit, hps, hinit2]
        | cons q qs => simp [hinit, hps, hinit2]
    · have hinit2 : nameInitials username ≠ [] := by
        simpa [List.isEmpty_iff] using hinit
      cases hps : pySplit username with
      | nil => simp [hinit, hps, hinit2]
      | cons p rest =>
        cases rest with
        | nil => simp [hinit, hps, hinit2]
        | cons q qs =>
          simp only [hps, hinit, Bool.false_eq_true, if_false, List.mem_dedup]
          simp [hinit2]

/-- Helper: concrete evaluation of `track_mentions` on username "Al" and
transcript "Al is here." at an arbitrary wall-clock reading. -/
theorem track_al (now : List Char) :
    track_mentions "Al".data "Al is here.".data [] false now
      = some (alReport now) := by
  have hraw : findMentionsRaw "Al is here.".data ["al".data] = [alMention] := by
    decide
  have hdedup : deduplicate_mentions [alMention] = [alMention] := by
    unfold deduplicate_mentions
    rw [List.mergeSort_of_sorted (by simp)]
    rfl
  have hfind : find_mentions "Al is here.".data ["al".data] = [alMention] := by
    unfold find_mentions
    rw [hraw, hdedup, List.mergeSort_of_sorted (by simp)]
  unfold track_mentions
  rw [if_neg (by decide)]
  rw [show pyStrip "Al".data = "Al".data from by decide]
  rw [show mt_generate_name_variations "Al".data = some ["al".data] from by
    decide]
  simp only [hfind]
  rw [if_neg (by simp)]
  rfl

/-- Helper: the tracker output is independent of the wall-clock reading in
every field except tracked_at. -/
theorem track_mentions_time_invariant (u tr : List Char)
    (segs : List MergedSeg) (d : Bool) (t1 t2 : List Char) :
    (track_mentions u tr segs d t1).map stripTrackedAt
      = (track_mentions u tr segs d t2).map stripTrackedAt := by
  unfold track_mentions
  split
  · rfl
  · split
    · rfl
    · split
      · rfl
      · rfl

/-- Helper: transitivity of the priority-rank comparator. -/
theorem rankLe_trans : ∀ a b c : ActionItem,
    decide (priority_order a.priority ≤ priority_order b.priority) = true →
    decide (priority_order b.priority ≤ priority_order c.priority) = true →
    decide (priority_order a.priority ≤ priority_order c.priority) = true := by
  intro a b c h1 h2
  simp only [decide_eq_true_eq] at *
  omega

/-- Helper: totality of the priority-rank comparator. -/
theorem rankLe_total : ∀ a b : ActionItem,
    (decide (priority_order a.priority ≤ priority_order b.priority)
      || decide (priority_order b.priority ≤ priority_order a.priority))
      = true := by
  intro a b
  rcases Nat.le_total (priority_order a.priority) (priority_order b.priority)
    with h | h <;> simp [h]

/-- Claim C4: for every collaborator output, the extracted action-item list
has non-decreasing priority rank, and within each priority the items keep
the extraction order (the sort is stable: filtering the output by any
priority gives exactly the filtered pre-sort sequence). -/
theorem c4_action_item_ordering (sents : List SpacySent) :
    List.Pairwise (fun a b : ActionItem =>
      priority_order a.priority ≤ priority_order b.priority) (extract sents) ∧
    ∀ p : List Char,
      (extract sents).filter (fun it => it.priority == p)
        = (sents.filterMap processSentence).filter (fun it => it.priority == p) := by
  constructor
  · exact (List.sorted_mergeSort rankLe_trans rankLe_total
      (sents.filterMap processSentence)).imp (by intro a b h; simpa using h)
  · intro p
    have hperm : (extract sents).Perm (sents.filterMap processSentence) :=
      List.mergeSort_perm (sents.filterMap processSentence) _
    have hB : List.Pairwise (fun a b : ActionItem =>
        decide (priority_order a.priority ≤ priority_order b.priority) = true)
        ((sents.filterMap processSentence).filter (fun it => it.priority == p)) := by
      apply List.pairwise_of_forall_mem_list
      intro a ha b hb
      have hap : a.priority = p := eq_of_beq (List.mem_filter.mp ha).2
      have hbp : b.priority = p := eq_of_beq (List.mem_filter.mp hb).2
      simp [hap, hbp]
    have hsubl : ((sents.filterMap processSentence).filter
        (fun it => it.priority == p)).Sublist (extract sents) :=
      List.sublist_mergeSort rankLe_trans rankLe_total hB
        (List.filter_sublist _)
    have hsub2 : ((sents.filterMap processSentence).filter
        (fun it => it.priority == p)).Sublist
        ((extract sents).filter (fun it => it.priority == p)) := by
      have := hsubl.filter (fun it => it.priority == p)
      rwa [List.filter_filter, (by
        funext it
        by_cases h : it.priority == p <;> simp [h] : (fun it : ActionItem =>
          (it.priority == p && it.priority == p)) = fun it => it.priority == p)]
        at this
    have hlen : ((extract sents).filter (fun it => it.priority == p)).length
        = ((sents.filterMap processSentence).filter
          (fun it => it.priority == p)).length :=
      (hperm.filter _).length_eq
    exact (hsub2.eq_of_length hlen.symm).symm

/-- Helper: a digit character is not alphabetic. -/
theorem isDigit_not_isAlpha (c : Char) (h : c.isDigit = true) :
    c.isAlpha = false := by
  obtain ⟨⟨⟨n, hn⟩⟩, hv⟩ := c
  simp only [Char.isDigit, Char.isUpper, Char.isLower, Char.isAlpha,
    ge_iff_le, Bool.and_eq_true, decide_eq_true_eq, Bool.or_eq_false_iff,
    Bool.and_eq_false_iff, decide_eq_false_iff_not, not_le,
    UInt32.le_def, UInt32.lt_def, BitVec.le_def, BitVec.lt_def,
    UInt32.toNat, BitVec.toNat] at *
  simp only [show (((48:UInt32).toBitVec).toFin : Fin (2^32)).val = 48 from rfl,
    show (((57:UInt32).toBitVec).toFin : Fin (2^32)).val = 57 from rfl,
    show (((65:UInt32).toBitVec).toFin : Fin (2^32)).val = 65 from rfl,
    show (((90:UInt32).toBitVec).toFin : Fin (2^32)).val = 90 from rfl,
    show (((97:UInt32).toBitVec).toFin : Fin (2^32)).val = 97 from rfl,
    show (((122:UInt32).toBitVec).toFin : Fin (2^32)).val = 122 from rfl] at *
  omega

/-- Helper: the first defined alternative is one of the alternatives. -/
theorem firstSome_eq_some {α : Type} :
    ∀ (l : List (Option α)) (a : α), firstSome l = some a → some a ∈ l := by
  intro l
  induction l with
  | nil => intro a h; exact absurd h (by simp [firstSome])
  | cons o rest ih =>
    intro a h
    cases o with
    | some b =>
      simp only [firstSome] at h
      rw [← h]
      exact List.mem_cons_self _ _
    | none =>
      simp only [firstSome] at h
      exact List.mem_cons_of_mem _ (ih a h)

/-- Helper: title-casing keeps digit characters. -/
theorem pyTitleGo_digit :
    ∀ (l : List Char) (prev : Bool), (∃ c ∈ l, c.isDigit = true) →
      ∃ c ∈ pyTitleGo prev l, c.isDigit = true := by
  intro l
  induction l with
  | nil => intro prev h; simp at h
  | cons x xs ih =>
    intro prev h
    obtain ⟨c, hc, hcd⟩ := h
    rcases List.mem_cons.mp hc with rfl | hmem
    · have halpha : c.isAlpha = false := isDigit_not_isAlpha c hcd
      refine ⟨c, ?_, hcd⟩
      simp only [pyTitleGo, halpha, Bool.false_eq_true, if_false]
      exact List.mem_cons_self _ _
    · obtain ⟨c2, hc2, hc2d⟩ := ih x.isAlpha ⟨c, hmem, hcd⟩
      refine ⟨c2, ?_, hc2d⟩
      simp only [pyTitleGo]
      exact List.mem_cons_of_mem _ hc2

/-- Helper: a digit inside the matched slice. -/
theorem digit_mem_slice (s : List Char) (i k n : Nat) (hik : i ≤ k)
    (hkn : k - i < n) (hd : (s.getD k ' ').isDigit = true) :
    ∃ c ∈ (s.drop i).take n, c.isDigit = true := by
  have hklen : k < s.length := by
    by_contra hge
    push_neg at hge
    rw [List.getD_eq_default s ' ' hge] at hd
    exact absurd hd (by decide)
  have hlt : k - i < ((s.drop i).take n).length := by
    simp only [List.length_take, List.length_drop]
    omega
  refine ⟨((s.drop i).take n).get ⟨k - i, hlt⟩, List.get_mem _ _ _, ?_⟩
  have heq : ((s.drop i).take n).get ⟨k - i, hlt⟩ = s.getD k ' ' := by
    simp only [List.get_eq_getElem, List.getElem_take, List.getElem_drop]
    rw [List.getD_eq_getElem s ' ' hklen]
    congr 1
    omega
  rw [heq]
  exact hd

/-- Helper: a word-alternation search returns one of the listed words. -/
theorem searchWordAlt_mem (words : List (List Char)) (s r : List Char)
    (h : searchWordAlt words s = some r) : r ∈ words := by
  unfold searchWordAlt at h
  obtain ⟨o, ho, _⟩ := List.mem_map.mp (firstSome_eq_some _ _ h)
  rename_i heq
  obtain ⟨w, hw, hweq⟩ := List.mem_map.mp (firstSome_eq_some _ _ heq)
  by_cases hc : matchCIAt s o w ∧ wordBoundary s o ∧ wordBoundary s (o + w.length)
  · rw [if_pos hc] at hweq
    rw [← Option.some.inj hweq]
    exact hw
  · rw [if_neg hc] at hweq
    exact absurd hweq (by simp)

/-- Helper: a month-day match contains a digit. -/
theorem searchMonthDay_digit (s m : List Char)
    (h : searchMonthDay s = some m) : ∃ c ∈ m, c.isDigit = true := by
  unfold searchMonthDay at h
  obtain ⟨i, _, hfi⟩ := List.mem_map.mp (firstSome_eq_some _ _ h)
  by_cases hb : wordBoundary s i
  swap
  · rw [if_neg hb] at hfi
    exact absurd hfi (by simp)
  rw [if_pos hb] at hfi
  simp only [matchMonthDayAt] at hfi
  obtain ⟨j, hj, hk⟩ := Option.bind_eq_some.mp hfi
  have hij : i ≤ j := by
    obtain ⟨o2, ho2, hjeq⟩ := List.mem_map.mp (firstSome_eq_some _ _ hj)
    by_cases hc : matchCIAt s i o2
    · rw [if_pos hc] at hjeq
      rw [← Option.some.inj hjeq]
      omega
    · rw [if_neg hc] at hjeq
      exact absurd hjeq (by simp)
  split at hk
  · exact absurd hk (by simp)
  · split at hk
    · split at hk
      · split at hk
        · next hd2 _ =>
          rename_i hd1 _
          rw [← Option.some.inj hk]
          exact digit_mem_slice s i
            (j + ((s.drop j).takeWhile isSpace).length) _ (by omega)
            (by omega) hd1
        · exact absurd hk (by simp)
      · split at hk
        · next hb1 =>
          rename_i hd1 _
          rw [← Option.some.inj hk]
          exact digit_mem_slice s i
            (j + ((s.drop j).takeWhile isSpace).length) _ (by omega)
            (by omega) hd1
        · exact absurd hk (by simp)
    · exact absurd hk (by simp)

/-- Helper: a numeric-date match contains a digit. -/
theorem searchNumDate_digit (s m : List Char)
    (h : searchNumDate s = some m) : ∃ c ∈ m, c.isDigit = true := by
  unfold searchNumDate at h
  obtain ⟨i, _, hfi⟩ := List.mem_map.mp (firstSome_eq_some _ _ h)
  by_cases hb : wordBoundary s i
  swap
  · rw [if_neg hb] at hfi
    exact absurd hfi (by simp)
  rw [if_pos hb] at hfi
  simp only [matchNumDateAt] at hfi
  split at hfi
  · next hc1 =>
    obtain ⟨q, hq, hmap⟩ := Option.bind_eq_some.mp hfi
    obtain ⟨e, he, hm⟩ := Option.map_eq_some'.mp hmap
    rw [← hm]
    have hq2 : i + 5 ≤ q := by
      split at hq
      · have := Option.some.inj hq; omega
      · split at hq
        · have := Option.some.inj hq; omega
        · exact absurd hq (by simp)
    have he2 : q + 2 ≤ e := by
      split at he
      · have := Option.some.inj he; omega
      · split at he
        · have := Option.some.inj he; omega
        · split at he
          · have := Option.some.inj he; omega
          · exact absurd he (by simp)
    exact digit_mem_slice s i i _ le_rfl (by omega) hc1.1
  · split at hfi
    · next hc2 =>
      obtain ⟨q, hq, hmap⟩ := Option.bind_eq_some.mp hfi
      obtain ⟨e, he, hm⟩ := Option.map_eq_some'.mp hmap
      rw [← hm]
      have hq2 : i + 4 ≤ q := by
        split at hq
        · have := Option.some.inj hq; omega
        · split at hq
          · have := Option.some.inj hq; omega
          · exact absurd hq (by simp)
      have he2 : q + 2 ≤ e := by
        split at he
        · have := Option.some.inj he; omega
        · split at he
          · have := Option.some.inj he; omega
          · split at he
            · have := Option.some.inj he; omega
            · exact absurd he (by simp)
      exact digit_mem_slice s i i _ le_rfl (by omega) hc2.1
    · exact absurd hfi (by simp)

/-- Helper: a digit survives title-casing of the whole match. -/
theorem pyTitle_digit_of_match (m : List Char)
    (h : ∃ c ∈ m, c.isDigit = true) :
    ∃ c ∈ pyTitle m, c.isDigit = true :=
  pyTitleGo_digit m false h

/-- Helper: a resolved deadline string never equals the default sentinel:
word-list matches title-case to fixed strings different from it, and
month-day or numeric matches contain a digit while the sentinel has none. -/
theorem extract_deadline_ne_default (t r : List Char)
    (h : extract_deadline t = some r) :
    r ≠ "No deadline specified".data := by
  unfold extract_deadline at h
  obtain ⟨m, hm, hr⟩ := Option.map_eq_some'.mp h
  have hmem := firstSome_eq_some _ _ hm
  subst hr
  have hnodigit : ∀ c ∈ "No deadline specified".data, ¬ c.isDigit = true := by
    decide
  rcases List.mem_cons.mp hmem with h1 | hmem
  · have hw := searchWordAlt_mem _ _ _ h1.symm
    revert hw
    have : ∀ w ∈ weekdayNames, pyTitle w ≠ "No deadline specified".data := by
      decide
    intro hw
    exact this m hw
  rcases List.mem_cons.mp hmem with h2 | hmem
  · have hw := searchWordAlt_mem _ _ _ h2.symm
    revert hw
    have : ∀ w ∈ relativeDayNames,
        pyTitle w ≠ "No deadline specified".data := by
      decide
    intro hw
    exact this m hw
  rcases List.mem_cons.mp hmem with h3 | hmem
  · obtain ⟨c, hc, hcd⟩ := pyTitle_digit_of_match m
      (searchMonthDay_digit _ _ h3.symm)
    intro heq
    rw [heq] at hc
    exact hnodigit c hc hcd
  rcases List.mem_cons.mp hmem with h4 | hmem
  · obtain ⟨c, hc, hcd⟩ := pyTitle_digit_of_match m
      (searchNumDate_digit _ _ h4.symm)
    intro heq
    rw [heq] at hc
    exact hnodigit c hc hcd
  · simp at hmem

/-- Helper: joining person names with " and " cannot produce the default
sentinel unless a listed name is the sentinel itself. -/
theorem joinAnd_ne_unassigned :
    ∀ ps : List (List Char), (∀ q ∈ ps, q ≠ "Unassigned".data) → ps ≠ [] →
      joinAnd ps ≠ "Unassigned".data := by
  intro ps
  match ps with
  | [] => intro _ hne; exact absurd rfl hne
  | [p] =>
    intro hq _
    simpa [joinAnd] using hq p (by simp)
  | p :: q :: rest =>
    intro _ _
    show p ++ " and ".data ++ joinAnd (q :: rest) ≠ _
    intro heq
    have hsp : ' ' ∈ p ++ " and ".data ++ joinAnd (q :: rest) := by
      refine List.mem_append.mpr (Or.inl ?_)
      refine List.mem_append.mpr (Or.inr ?_)
      decide
    rw [heq] at hsp
    exact absurd hsp (by decide)

/-- Helper: a resolved assignee differs from "Unassigned" as long as the
NER collaborator never reports that literal as a person name. -/
theorem extract_assignee_ne_unassigned (sent : SpacySent) (s : List Char)
    (h : extract_assignee sent = some s)
    (hner : ∀ e ∈ sent.ents, e.label = "PERSON".data →
      e.text ≠ "Unassigned".data) :
    s ≠ "Unassigned".data := by
  simp only [extract_assignee] at h
  split at h
  · next hne =>
    have hs := Option.some.inj h
    rw [← hs]
    apply joinAnd_ne_unassigned _ _ hne
    intro q hq
    obtain ⟨e, he, hetext⟩ := List.mem_map.mp hq
    have hlabel : e.label = "PERSON".data :=
      eq_of_beq (List.mem_filter.mp he).2
    rw [← hetext]
    exact hner e (List.mem_filter.mp he).1 hlabel
  · split at h
    · next role hrole =>
      have hs := Option.some.inj h
      rw [← hs]
      intro heq
      have heq2 : ('T' :: ("he ".data ++ role)) = 'U' :: "nassigned".data := heq
      injection heq2 with hh _
      exact absurd hh (by decide)
    · exact absurd h (by simp)

/-- Helper: the confidence gate forces an assignee, or both a deadline and
an in-range sentence length. -/
theorem conf_gate (a d : Bool) (len : Nat)
    (h : 6/10 ≤ calculate_confidence a d true len) :
    a = true ∨ (d = true ∧ 5 ≤ len ∧ len ≤ 30) := by
  cases a
  · cases d
    · by_cases hl : 5 ≤ len ∧ len ≤ 30
      · exfalso
        rw [show calculate_confidence false false true len = 1/2 by
          simp only [calculate_confidence, hl]
          norm_num] at h
        norm_num at h
      · exfalso
        rw [show calculate_confidence false false true len = 3/10 by
          simp only [calculate_confidence, hl]
          norm_num] at h
        norm_num at h
    · by_cases hl : 5 ≤ len ∧ len ≤ 30
      · exact Or.inr ⟨rfl, hl.1, hl.2⟩
      · exfalso
        rw [show calculate_confidence false true true len = 1/2 by
          simp only [calculate_confidence, hl]
          norm_num] at h
        norm_num at h
  · exact Or.inl rfl

/-- Helper: the confidence score is capped at 1. -/
theorem calculate_confidence_le_one (a d v : Bool) (len : Nat) :
    calculate_confidence a d v len ≤ 1 := by
  simp only [calculate_confidence]
  exact min_le_right _ _

/-- Helper: rounding to two decimals keeps a value between the gate and
the cap within those bounds. -/
theorem round2_bounds (q : ℚ) (h1 : 6/10 ≤ q) (h2 : q ≤ 1) :
    6/10 ≤ round2 q ∧ round2 q ≤ 1 := by
  unfold round2
  rw [round_eq]
  have hlo : (60 : ℤ) ≤ ⌊q * 100 + 1/2⌋ := by
    have hle : ((60:ℚ) + 1/2) ≤ q * 100 + 1/2 := by linarith
    have h3 := Int.floor_mono hle
    rwa [show ⌊(60:ℚ) + 1/2⌋ = 60 from by norm_num] at h3
  have hhi : ⌊q * 100 + 1/2⌋ ≤ (100 : ℤ) := by
    have hle : q * 100 + 1/2 ≤ (100:ℚ) + 1/2 := by linarith
    have h3 := Int.floor_mono hle
    have h4 : ⌊(100:ℚ) + 1/2⌋ = 100 := by norm_num
    omega
  constructor
  · have hc : ((60:ℤ):ℚ) ≤ ((⌊q * 100 + 1/2⌋ : ℤ) : ℚ) := by
      exact_mod_cast hlo
    push_cast at hc
    linarith
  · have hc : ((⌊q * 100 + 1/2⌋ : ℤ) : ℚ) ≤ ((100:ℤ):ℚ) := by
      exact_mod_cast hhi
    push_cast at hc
    linarith

/-- Claim C10 (amended): provided the NER collaborator never reports the
literal "Unassigned" as a person name, every emitted action item has either
an assignee different from the default sentinel, or both a deadline
different from the default sentinel and a source-sentence word count in
[5, 30]; and every emitted confidence lies in [0.6, 1.0]. -/
theorem c10_emitted_item_bounds (sents : List SpacySent)
    (hner : ∀ sent ∈ sents, ∀ e ∈ sent.ents, e.label = "PERSON".data →
      e.text ≠ "Unassigned".data) :
    ∀ it ∈ extract sents,
      (it.assignee ≠ "Unassigned".data ∨
        (it.deadline ≠ "No deadline specified".data ∧
          5 ≤ (pySplit it.context).length ∧ (pySplit it.context).length ≤ 30)) ∧
      6/10 ≤ it.confidence ∧ it.confidence ≤ 1 := by
  intro it hit
  have hmem : it ∈ sents.filterMap processSentence :=
    (List.mergeSort_perm (sents.filterMap processSentence) _).mem_iff.mp hit
  obtain ⟨sent, hsent, hps⟩ := List.mem_filterMap.mp hmem
  simp only [processSentence] at hps
  split at hps
  · exact absurd hps (by simp)
  · split at hps
    · next hgate =>
      obtain ⟨hconf, htask⟩ := hgate
      have hsome := Option.some.inj hps
      subst hsome
      constructor
      · rcases conf_gate _ _ _ hconf with ha | ⟨hd, hl1, hl2⟩
        · left
          obtain ⟨s, hs⟩ := Option.isSome_iff_exists.mp ha
          show (extract_assignee sent).getD "Unassigned".data
            ≠ "Unassigned".data
          rw [hs]
          exact extract_assignee_ne_unassigned sent s hs (hner sent hsent)
        · right
          refine ⟨?_, hl1, hl2⟩
          obtain ⟨r, hr⟩ := Option.isSome_iff_exists.mp hd
          show (extract_deadline (pyStrip sent.text)).getD
            "No deadline specified".data ≠ "No deadline specified".data
          rw [hr]
          exact extract_deadline_ne_default _ r hr
      · exact round2_bounds _ hconf (calculate_confidence_le_one _ _ _ _)
    · exact absurd hps (by simp)

/-- Counterexample to C10 as stated: when the NER collaborator labels the
literal "Unassigned" as a PERSON, the extractor emits an item whose
assignee field is the default sentinel while the deadline is also the
default, contradicting the claimed field-level disjunction. -/
theorem c10_counterexample :
    ∃ it ∈ extract [c10CexSent],
      it.assignee = "Unassigned".data ∧
      it.deadline = "No deadline specified".data := by
  have hconf : calculate_confidence true false true 6 = 4/5 := by
    unfold calculate_confidence
    norm_num
  have hround : round2 (4/5) = 4/5 := by
    unfold round2
    norm_num
  have hps : processSentence c10CexSent = some c10CexItem := by
    simp only [processSentence]
    rw [if_neg (by decide)]
    rw [show extract_assignee c10CexSent = some "Unassigned".data from by
      decide]
    rw [show extract_deadline (pyStrip c10CexSent.text) = none from by decide]
    rw [show (pySplit (pyStrip c10CexSent.text)).length = 6 from by decide]
    simp only [Option.isSome_some, Option.isSome_none]
    rw [hconf]
    rw [if_pos ⟨by norm_num, by decide⟩]
    rw [hround]
    refine congrArg some ?_
    unfold c10CexItem
    congr 1
  have hext : extract [c10CexSent] = [c10CexItem] := by
    unfold extract
    rw [show [c10CexSent].filterMap processSentence = [c10CexItem] from by
      simp [List.filterMap_cons, hps]]
    exact List.mergeSort_of_sorted (by simp)
  rw [hext]
  exact ⟨c10CexItem, by simp, by decide, by decide⟩

/-- Helper: concrete evaluation of the extractor on the witness sentence. -/
theorem extract_c10WitSent : extract [c10WitSent] = [c10WitItem] := by
  have hconf : calculate_confidence true false true 5 = 4/5 := by
    unfold calculate_confidence
    norm_num
  have hround : round2 (4/5) = 4/5 := by
    unfold round2
    norm_num
  have hps : processSentence c10WitSent = some c10WitItem := by
    simp only [processSentence]
    rw [if_neg (by decide)]
    rw [show extract_assignee c10WitSent = some "Bob".data from by decide]
    rw [show extract_deadline (pyStrip c10WitSent.text) = none from by decide]
    rw [show (pySplit (pyStrip c10WitSent.text)).length = 5 from by decide]
    simp only [Option.isSome_some, Option.isSome_none]
    rw [hconf]
    rw [if_pos ⟨by norm_num, by decide⟩]
    rw [hround]
    refine congrArg some ?_
    unfold c10WitItem
    congr 1
  unfold extract
  rw [show [c10WitSent].filterMap processSentence = [c10WitItem] from by
    simp [List.filterMap_cons, hps]]
  exact List.mergeSort_of_sorted (by simp)

/-- Witness for the amended C10 at a concrete input. -/
theorem c10_emitted_item_bounds_witness :
    (c10WitItem.assignee ≠ "Unassigned".data ∨
      (c10WitItem.deadline ≠ "No deadline specified".data ∧
        5 ≤ (pySplit c10WitItem.context).length ∧
        (pySplit c10WitItem.context).length ≤ 30)) ∧
    6/10 ≤ c10WitItem.confidence ∧ c10WitItem.confidence ≤ 1 :=
  c10_emitted_item_bounds [c10WitSent] (by decide) c10WitItem
    (by rw [extract_c10WitSent]; simp)

/-- Counterexample to C5 as stated: two runs of mention tracking on the
identical input differ, because the report embeds the wall-clock reading in
its tracked_at field. -/
theorem c5_idempotence_counterexample :
    track_mentions "Al".data "Al is here.".data [] false "t1".data
      ≠ track_mentions "Al".data "Al is here.".data [] false "t2".data := by
  rw [track_al "t1".data, track_al "t2".data]
  intro heq
  have h1 := congrArg MentionReport.tracked_at (Option.some.inj heq)
  exact absurd h1 (by decide)

/-- Claim C5 (amended): on a fixed input and fixed collaborator output,
action-item extraction is deterministic, and mention tracking is
deterministic in every field except tracked_at, which records the
wall-clock reading of the run. -/
theorem c5_determinism (sents : List SpacySent) (u tr : List Char)
    (segs : List MergedSeg) (d : Bool) (t1 t2 : List Char) :
    extract sents = extract sents ∧
    (track_mentions u tr segs d t1).map stripTrackedAt
      = (track_mentions u tr segs d t2).map stripTrackedAt :=
  ⟨rfl, track_mentions_time_invariant u tr segs d t1 t2⟩

/-- Claim C7 (code bug): the claim describes the intended behavior, but the
call `summarize(personal_transcript, max_length=150, min_length=30)` passes
a min_length keyword that the summarize signature does not accept; the
TypeError is swallowed by the except handler, so the personal summary is
the empty string for every input with at least 10 characters as well —
the prefixed collaborator summary is never produced. -/
theorem c7_personal_summary_code_bug
    (summarizer : List Char → Nat → SummaryResult)
    (personal_transcript user_name : List Char) :
    callSummarize summarizer personal_transcript
        [("max_length".data, 150), ("min_length".data, 30)]
      = Except.error "TypeError: summarize() got an unexpected keyword argument min_length".data ∧
    generate_personal_summary summarizer personal_transcript user_name
      = [] := by
  have hcall : callSummarize summarizer personal_transcript
      [("max_length".data, 150), ("min_length".data, 30)]
      = Except.error "TypeError: summarize() got an unexpected keyword argument min_length".data := by
    unfold callSummarize
    rw [if_neg (by decide)]
  refine ⟨hcall, ?_⟩
  unfold generate_personal_summary
  by_cases hshort : personal_transcript = [] ∨ personal_transcript.length < 10
  · rw [if_pos hshort]
  · rw [if_neg hshort, hcall]

/-- Witness for the amended C6 at concrete single-word and multi-word
usernames. -/
theorem c6_name_variations_witness :
    mt_generate_name_variations "Bob".data = some [lowerStr "Bob".data] ∧
    ∃ vs, mt_generate_name_variations "John Smith".data = some vs ∧
      ∀ x, x ∈ vs ↔ (x = lowerStr "John Smith".data ∨
        x = lowerStr "John".data ∨
        x = lowerStr (nameInitials "John Smith".data)) :=
  ⟨(c6_name_variations "Bob".data).1 (by decide),
   (c6_name_variations "John Smith".data).2.1 "John".data ["Smith".data]
     (by decide) (by decide)⟩
